import Mathlib

/-!
Verification of the retrieval-and-segmentation core of the SEC-filing
analysis repository.  The Python code under scrutiny lives in the
integration-plan document of the repository (functions
`get_filing_index_url`, `find_filing_document`, `download_filing`,
`_request_html`, `remove_numeric_tables`, and the `ItemExtractor` class
with `get_item_list`, `adjust_item_pattern`, `parse_item`,
`extract_all_items`, `clean_text`, `_clean_item_content`).

Texts are modelled as `List Char`, with Python string indices as `Nat`
offsets.  The regular expressions appearing in the code all belong to a
fragment in which greedy matching is deterministic (character classes
never overlap the token that follows a starred class), so each regex is
compiled by hand into a deterministic matcher, and `re.sub` / `re.finditer`
are modelled by a scanner that emits the leftmost match, then resumes
immediately after the matched span, exactly as the Python functions do.
-/

namespace Insight

/-- Character list of a string literal. -/
def str (s : String) : List Char := s.data

/-- Python `\s` on the ASCII range: the whitespace class used by `re`. -/
def isPyWsB (c : Char) : Bool :=
  c = ' ' || c = '\t' || c = '\n' || c = '\x0d' || c = '\x0b' || c = '\x0c'

/-- The character class `[^\S\r\n]`: whitespace that is neither `\r` nor `\n`. -/
def isBlankB (c : Char) : Bool :=
  c = ' ' || c = '\t' || c = '\x0b' || c = '\x0c'

/-- Case-insensitive character comparison, as `re.IGNORECASE` performs on ASCII. -/
def lowerEq (p c : Char) : Bool := p.toLower = c.toLower

/-- Does the second list start with the first one? -/
def startsWithL : List Char → List Char → Bool
  | [], _ => true
  | _ :: _, [] => false
  | p :: ps, c :: cs => p = c && startsWithL ps cs

/-- Substring containment, Python's `pat in s`. -/
def containsSub (pat : List Char) : List Char → Bool
  | [] => startsWithL pat []
  | c :: cs => startsWithL pat (c :: cs) || containsSub pat cs

/-- Does the list end with the given suffix?  Python `str.endswith`. -/
def endsWithL (suf s : List Char) : Bool := startsWithL suf.reverse s.reverse

/-- Python `str.lower` on a character list. -/
def lowerStr (s : List Char) : List Char := s.map Char.toLower

/-- Python `str.strip()`: drop leading and trailing whitespace. -/
def pyStripL (s : List Char) : List Char :=
  ((s.dropWhile isPyWsB).reverse.dropWhile isPyWsB).reverse

/-!
The `re.sub` scanner.  `pyScan f s k` walks `s`; while `k > 0` it is still
inside the previously matched span and just skips; at `k = 0` it attempts a
match via `f`.  On `f s = some (out, n)` the scanner emits `out` and skips
the `n` matched characters; otherwise it copies one character.  This is the
behaviour of `re.sub` for patterns that never match the empty string.
-/

def pyScan (f : List Char → Option (List Char × Nat)) : List Char → Nat → List Char
  | [], _ => []
  | _ :: t, k + 1 => pyScan f t k
  | c :: t, 0 =>
    match f (c :: t) with
    | some (out, n) => out ++ pyScan f t (n - 1)
    | none => c :: pyScan f t 0

theorem pyScan_skip (f : List Char → Option (List Char × Nat)) :
    ∀ (s : List Char) (k : Nat), pyScan f s k = pyScan f (s.drop k) 0 := by
  intro s
  induction s with
  | nil => intro k; cases k <;> rfl
  | cons c t ih =>
    intro k
    cases k with
    | zero => rfl
    | succ k => simpa [pyScan] using ih k

theorem pyScan_match {f : List Char → Option (List Char × Nat)}
    {s out : List Char} {n : Nat} (hs : s ≠ []) (hn : 1 ≤ n)
    (h : f s = some (out, n)) :
    pyScan f s 0 = out ++ pyScan f (s.drop n) 0 := by
  cases s with
  | nil => exact absurd rfl hs
  | cons c t =>
    cases n with
    | zero => omega
    | succ n => simp [pyScan, h, pyScan_skip]

theorem pyScan_copy {f : List Char → Option (List Char × Nat)}
    {c : Char} {t : List Char} (h : f (c :: t) = none) :
    pyScan f (c :: t) 0 = c :: pyScan f t 0 := by
  simp [pyScan, h]

/-!
`ItemExtractor.clean_text` step 1: repair of letter-spaced item headers.
Python:
  re.sub(r"(\n[^\S\r\n]*)(I[^\S\r\n]*T[^\S\r\n]*E[^\S\r\n]*M)([^\S\r\n]+)(\d)",
         r"\1ITEM\3\4", text, flags=re.IGNORECASE)
Every starred class in this pattern excludes the character that must
follow it, so greedy matching is deterministic and is compiled directly.
-/

/-- Group 2 of the header-repair pattern: I, T, E, M separated by optional
non-newline whitespace, case-insensitively.  Returns the consumed span and
the remainder. -/
def parseSpacedITEM (s : List Char) : Option (List Char × List Char) :=
  match s with
  | c1 :: s1 =>
    if lowerEq 'i' c1 then
      match s1.dropWhile isBlankB with
      | c2 :: s2 =>
        if lowerEq 't' c2 then
          match s2.dropWhile isBlankB with
          | c3 :: s3 =>
            if lowerEq 'e' c3 then
              match s3.dropWhile isBlankB with
              | c4 :: s4 =>
                if lowerEq 'm' c4 then
                  some (c1 :: (s1.takeWhile isBlankB ++ c2 ::
                    (s2.takeWhile isBlankB ++ c3 ::
                      (s3.takeWhile isBlankB ++ [c4]))), s4)
                else none
              | [] => none
            else none
          | [] => none
        else none
      | [] => none
    else none
  | [] => none

/-- The header-repair pattern after its leading newline; on success returns
the replacement `\1ITEM\3\4` (with the newline) and the number of
characters consumed (with the newline). -/
def hdrTryCore (t : List Char) : Option (List Char × Nat) :=
  match parseSpacedITEM (t.dropWhile isBlankB) with
  | some (core, t2) =>
    if (t2.takeWhile isBlankB).isEmpty then none
    else
      match t2.dropWhile isBlankB with
      | d :: _ =>
        if d.isDigit then
          some ('\n' :: (t.takeWhile isBlankB ++ str "ITEM" ++
                  t2.takeWhile isBlankB ++ [d]),
                1 + (t.takeWhile isBlankB).length + core.length +
                  (t2.takeWhile isBlankB).length + 1)
        else none
      | [] => none
  | none => none

/-- One attempted match of the header-repair pattern. -/
def hdrTry (s : List Char) : Option (List Char × Nat) :=
  match s with
  | c :: t => if c = '\n' then hdrTryCore t else none
  | [] => none

/-- Case-insensitive literal word, returning the consumed span. -/
def parseWordCI : List Char → List Char → Option (List Char × List Char)
  | [], s => some ([], s)
  | p :: ps, c :: cs =>
    if lowerEq p c then
      match parseWordCI ps cs with
      | some (g, r) => some (c :: g, r)
      | none => none
    else none
  | _ :: _, [] => none

/-- The regex `\s+`: one or more whitespace characters, greedily. -/
def parseWs1 (s : List Char) : Option (List Char × List Char) :=
  let w := s.takeWhile isPyWsB
  if w.isEmpty then none else some (w, s.dropWhile isPyWsB)

/-- A sequence of literal words joined by `\s+`. -/
def parsePhrase : List (List Char) → List Char → Option (List Char × List Char)
  | [], s => some ([], s)
  | [w], s => parseWordCI w s
  | w :: w2 :: ws, s =>
    match parseWordCI w s with
    | some (g1, r1) =>
      match parseWs1 r1 with
      | some (g2, r2) =>
        match parsePhrase (w2 :: ws) r2 with
        | some (g3, r3) => some (g1 ++ (g2 ++ g3), r3)
        | none => none
      | none => none
    | none => none

/-- `clean_text` step 2: removal of table-of-contents header lines.
Python: re.sub(r"\n[^\S\r\n]*(TABLE\s+OF\s+CONTENTS|INDEX\s+TO\s+FINANCIAL)[^\S\r\n]*\n", "\n", ...).
The two alternatives begin with distinct letters, so first-match alternation
is deterministic. -/
def tocTry (s : List Char) : Option (List Char × Nat) :=
  match s with
  | '\n' :: t =>
    let ws1 := t.takeWhile isBlankB
    let t1 := t.dropWhile isBlankB
    let alt :=
      match parsePhrase [str "TABLE", str "OF", str "CONTENTS"] t1 with
      | some gr => some gr
      | none => parsePhrase [str "INDEX", str "TO", str "FINANCIAL"] t1
    match alt with
    | some (g, r) =>
      let ws2 := r.takeWhile isBlankB
      match r.dropWhile isBlankB with
      | '\n' :: _ => some (str "\n", 1 + ws1.length + g.length + ws2.length + 1)
      | _ => none
    | none => none
  | _ => none

/-- The dash class `[-–—]` of the page-number pattern. -/
def isDashB (c : Char) : Bool := c = '-' || c = '\u2013' || c = '\u2014'

/-- `clean_text` step 3: removal of standalone page-number lines.
Python: re.sub(r"\n[^\S\r\n]*[-–—]*\d+[-–—]*[^\S\r\n]*\n", "\n", text). -/
def pageNumTry (s : List Char) : Option (List Char × Nat) :=
  match s with
  | '\n' :: t =>
    let w1 := t.takeWhile isBlankB
    let t1 := t.dropWhile isBlankB
    let d1 := t1.takeWhile isDashB
    let t2 := t1.dropWhile isDashB
    let ds := t2.takeWhile Char.isDigit
    if ds.isEmpty then none
    else
      let t3 := t2.dropWhile Char.isDigit
      let d2 := t3.takeWhile isDashB
      let t4 := t3.dropWhile isDashB
      let w2 := t4.takeWhile isBlankB
      match t4.dropWhile isBlankB with
      | '\n' :: _ =>
        some (str "\n",
              1 + w1.length + d1.length + ds.length + d2.length + w2.length + 1)
      | _ => none
  | _ => none

/-- `clean_text` step 4: removal of "Page N" lines.
Python: re.sub(r"\n[^\S\r\n]*Page\s+\d+[^\S\r\n]*\n", "\n", text, IGNORECASE). -/
def pageNTry (s : List Char) : Option (List Char × Nat) :=
  match s with
  | '\n' :: t =>
    let w1 := t.takeWhile isBlankB
    match parseWordCI (str "Page") (t.dropWhile isBlankB) with
    | some (g, r) =>
      match parseWs1 r with
      | some (wsp, r1) =>
        let ds := r1.takeWhile Char.isDigit
        if ds.isEmpty then none
        else
          let r2 := r1.dropWhile Char.isDigit
          let w2 := r2.takeWhile isBlankB
          match r2.dropWhile isBlankB with
          | '\n' :: _ =>
            some (str "\n",
                  1 + w1.length + g.length + wsp.length + ds.length + w2.length + 1)
          | _ => none
      | none => none
    | none => none
  | _ => none

/-- `clean_text` step 5: the four character-normalization substitutions.
Each replaces single characters of a fixed class by a single ASCII
character, and no replacement character belongs to a later class, so the
four sequential `re.sub` calls equal one map with the first applicable
rule. -/
def normChar (c : Char) : Char :=
  if c = ' ' || c = '​' then ' '
  else if c = '\u2018' || c = '\u2019' then '\''
  else if c = '\u201C' || c = '\u201D' then '"'
  else if c = '\u2010' || c = '\u2011' || c = '\u2012' || c = '\u2013' ||
          c = '\u2014' || c = '\u2015' then '-'
  else c

/-- The part of a whitespace run that follows its last newline. -/
def afterLastNl (run : List Char) : List Char :=
  (run.reverse.takeWhile (fun c => !(c = '\n'))).reverse

/-- `clean_text` step 6: collapse of blank-line runs.
Python: re.sub(r"\n\s*\n\s*\n", "\n\n", text).  Greedy matching consumes
from the leading newline through the last newline of the following
whitespace run, provided that run holds at least two further newlines. -/
def blankRunTry (s : List Char) : Option (List Char × Nat) :=
  match s with
  | c :: t =>
    if c = '\n' then
      let run := t.takeWhile isPyWsB
      if 2 ≤ run.count '\n' then
        some (str "\n\n", 1 + (run.length - (afterLastNl run).length))
      else none
    else none
  | [] => none

/-- Step 1 of `ItemExtractor.clean_text`. -/
def fix_broken_headers (t : List Char) : List Char := pyScan hdrTry t 0

/-- Step 2 of `ItemExtractor.clean_text`. -/
def remove_toc_lines (t : List Char) : List Char := pyScan tocTry t 0

/-- Step 3 of `ItemExtractor.clean_text`. -/
def remove_page_number_lines (t : List Char) : List Char := pyScan pageNumTry t 0

/-- Step 4 of `ItemExtractor.clean_text`. -/
def remove_page_n_lines (t : List Char) : List Char := pyScan pageNTry t 0

/-- Step 5 of `ItemExtractor.clean_text`. -/
def normalize_special_chars (t : List Char) : List Char := t.map normChar

/-- Step 6 of `ItemExtractor.clean_text`. -/
def collapse_blank_lines (t : List Char) : List Char := pyScan blankRunTry t 0

/-- `ItemExtractor.clean_text`: the full normalization pass, steps in source
order, ending with `str.strip()`. -/
def clean_text (text : List Char) : List Char :=
  pyStripL (collapse_blank_lines (normalize_special_chars
    (remove_page_n_lines (remove_page_number_lines
      (remove_toc_lines (fix_broken_headers text))))))

/-- Matcher for `re.sub(r"[ ]{2,}", " ", content)`: a run of two or more
spaces collapses to one space. -/
def spacesTry (s : List Char) : Option (List Char × Nat) :=
  match s with
  | a :: b :: t =>
    if a = ' ' ∧ b = ' ' then
      some (str " ", 2 + (t.takeWhile (fun c => c = ' ')).length)
    else none
  | _ => none

/-- Matcher for `re.sub(r"\n{3,}", "\n\n", content)`. -/
def newlines3Try (s : List Char) : Option (List Char × Nat) :=
  match s with
  | a :: b :: c :: t =>
    if a = '\n' ∧ b = '\n' ∧ c = '\n' then
      some (str "\n\n", 3 + (t.takeWhile (fun c => c = '\n')).length)
    else none
  | _ => none

/-- `ItemExtractor._clean_item_content`: space collapse, newline collapse,
strip. -/
def clean_item_content (content : List Char) : List Char :=
  pyStripL (pyScan newlines3Try (pyScan spacesTry content 0) 0)

/-!
Item header patterns.  `ItemExtractor.adjust_item_pattern` builds, for a
catalog label, the regex `ITEMS?\s*{escaped}` where `escaped` has literal
dots and, for a letter-suffixed label, `[^\S\r\n]*` inserted before the
letter; the label `SIGNATURE` instead yields `SIGNATURE(S|\(S\))?`.
`parse_item` then searches `\n[^\S\r\n]*{item_pattern}[.*~\-:\s\(]` with
IGNORECASE | DOTALL | MULTILINE.  The pattern is compiled to a token list
and a deterministic matcher: every starred class excludes the characters
that can follow it (catalog labels begin with a digit), so greedy matching
never backtracks, except in the `SIGNATURE` suffix where the three
alternatives are tried in the regex engine's order.
-/

inductive PTok
  | lit (c : Char)
  | wsLetter (c : Char)
deriving DecidableEq, Repr

/-- Token form of `adjust_item_pattern` for a non-SIGNATURE label: dots and
digits become literals and a letter suffix admits `[^\S\r\n]*` before it. -/
def adjust_item_tokens (item : List Char) : List PTok :=
  if item.contains 'A' then
    item.map (fun c => if c = 'A' then PTok.wsLetter 'A' else PTok.lit c)
  else if item.contains 'B' then
    item.map (fun c => if c = 'B' then PTok.wsLetter 'B' else PTok.lit c)
  else item.map PTok.lit

/-- Match a token list, case-insensitively, returning consumed and rest. -/
def matchToks : List PTok → List Char → Option (List Char × List Char)
  | [], s => some ([], s)
  | PTok.lit p :: ts, c :: cs =>
    if lowerEq p c then
      match matchToks ts cs with
      | some (g, r) => some (c :: g, r)
      | none => none
    else none
  | PTok.lit _ :: _, [] => none
  | PTok.wsLetter p :: ts, s =>
    match s.dropWhile isBlankB with
    | c :: cs =>
      if lowerEq p c then
        match matchToks ts cs with
        | some (g, r) => some (s.takeWhile isBlankB ++ c :: g, r)
        | none => none
      else none
    | [] => none

/-- The trailing delimiter class `[.*~\-:\s\(]`. -/
def isDelimB (c : Char) : Bool :=
  c = '.' || c = '*' || c = '~' || c = '-' || c = ':' || isPyWsB c || c = '('

/-- First alternative of the SIGNATURE suffix: a plural `S` then a
delimiter. -/
def sigAltS (r : List Char) : Option (List Char × List Char) :=
  match r with
  | c :: d :: rest =>
    if lowerEq 's' c && isDelimB d then some ([c, d], rest) else none
  | _ => none

/-- Second alternative: a literal `(S)` then a delimiter. -/
def sigAltParen (r : List Char) : Option (List Char × List Char) :=
  match r with
  | p :: c :: q :: d :: rest =>
    if p = '(' && lowerEq 's' c && q = ')' && isDelimB d then
      some ([p, c, q, d], rest)
    else none
  | _ => none

/-- Third alternative: the empty option, leaving just the delimiter. -/
def sigAltEmpty (r : List Char) : Option (List Char × List Char) :=
  match r with
  | d :: rest => if isDelimB d then some ([d], rest) else none
  | [] => none

/-- The suffix `(S|\(S\))?[.*~\-:\s\(]` of the SIGNATURE pattern, with the
regex engine's alternative order: `S` first, then `\(S\)`, then empty. -/
def sigTail (r : List Char) : Option (List Char × List Char) :=
  match sigAltS r with
  | some x => some x
  | none =>
    match sigAltParen r with
    | some x => some x
    | none => sigAltEmpty r

/-- The tail of the numbered-item header after `ITEM` and its optional
plural `S` are consumed: `\s*`, the label tokens, one delimiter.  `pre` is
everything of the group matched so far (newline, leading blanks, the ITEM
word, the optional `S`); `rest` is the unconsumed input. -/
def matchItemTail (item pre rest : List Char) : Option (List Char × List Char) :=
  match matchToks (adjust_item_tokens item) (rest.dropWhile isPyWsB) with
  | some (g3, r3) =>
    match r3 with
    | d :: r4 =>
      if isDelimB d then
        some (pre ++ rest.takeWhile isPyWsB ++ g3 ++ [d], r4)
      else none
    | [] => none
  | none => none

/-- The header pattern after its leading newline: `[^\S\r\n]*` then the
item pattern then one delimiter; returns matched group (with the newline)
and remainder. -/
def matchHeaderCore (item : List Char) (t : List Char) : Option (List Char × List Char) :=
  if item = str "SIGNATURE" then
    match parseWordCI (str "SIGNATURE") (t.dropWhile isBlankB) with
    | some (g, r) =>
      match sigTail r with
      | some (g2, r2) => some ('\n' :: (t.takeWhile isBlankB ++ g ++ g2), r2)
      | none => none
    | none => none
  else
    match parseWordCI (str "ITEM") (t.dropWhile isBlankB) with
    | some (g, r) =>
      match r with
      | c :: cs =>
        if lowerEq 's' c then
          matchItemTail item ('\n' :: (t.takeWhile isBlankB ++ g ++ [c])) cs
        else
          matchItemTail item ('\n' :: (t.takeWhile isBlankB ++ g)) (c :: cs)
      | [] => matchItemTail item ('\n' :: (t.takeWhile isBlankB ++ g)) []
    | none => none

/-- One attempted match of `\n[^\S\r\n]*{item_pattern}[.*~\-:\s\(]` at the
head of `s`; on success returns the matched group and the remainder. -/
def matchHeaderAt (item : List Char) (s : List Char) : Option (List Char × List Char) :=
  match s with
  | c :: t => if c = '\n' then matchHeaderCore item t else none
  | [] => none

/-- `re.finditer` for the header pattern: leftmost matches, resuming after
each matched span; emits (start offset, group length) pairs.  The second
argument counts characters still inside the previous match; the third is
the absolute offset of the list head. -/
def findItf (item : List Char) : List Char → Nat → Nat → List (Nat × Nat)
  | [], _, _ => []
  | _ :: t, k + 1, i => findItf item t k (i + 1)
  | c :: t, 0, i =>
    match matchHeaderAt item (c :: t) with
    | some (g, _) => (i, g.length) :: findItf item t (g.length - 1) (i + 1)
    | none => findItf item t 0 (i + 1)

/-- All header matches of a label in a text, in positional order. -/
def findAll (item text : List Char) : List (Nat × Nat) := findItf item text 0 0

/-- `re.search` for the header pattern: offset of the first match. -/
def searchFirst (item : List Char) : List Char → Option Nat
  | [] => none
  | c :: t =>
    match matchHeaderAt item (c :: t) with
    | some _ => some 0
    | none => (searchFirst item t).map (· + 1)

/-- The inner loop of `parse_item`: for each subsequent label in catalog
order, search its header in `text[startIdx:]`; the first label that
matches anywhere supplies the end boundary. -/
def findEnd (text : List Char) (next_items : List (List Char)) (startIdx : Nat) :
    Option Nat :=
  match next_items with
  | [] => none
  | ni :: rest =>
    match searchFirst ni (text.drop startIdx) with
    | some e => some e
    | none => findEnd text rest startIdx

/-- The record produced by `parse_item` (dataclass `ExtractedItem`). -/
structure ExtractedItem where
  item_number : List Char
  content : List Char
  start_pos : Nat
  end_pos : Nat
deriving DecidableEq, Repr

/-- One iteration of the candidate loop of `parse_item`, updating the
running pair (best match, best content) exactly as the Python loop body
does: candidates before `last_position` are skipped; a candidate with an
end boundary replaces the best when its content is strictly longer; a
candidate with no boundary takes all remaining text, but only when no best
match has been accepted yet. -/
def parseStep (text : List Char) (next_items : List (List Char)) (last_position : Nat)
    (st : Option (Nat × Nat) × List Char) (m : Nat × Nat) :
    Option (Nat × Nat) × List Char :=
  if m.1 < last_position then st
  else
    let st1 :=
      match findEnd text next_items (m.1 + m.2) with
      | some e =>
        let content := (text.drop m.1).take (m.2 + e)
        if st.2.length < content.length then (some m, content) else st
      | none => st
    if st1.1 = none then (some m, text.drop m.1) else st1

/-- The candidate loop of `parse_item`: the final (best match, best content)
pair after folding the loop body over all header matches. -/
def parseFold (text item_index : List Char) (next_items : List (List Char))
    (last_position : Nat) : Option (Nat × Nat) × List Char :=
  (findAll item_index text).foldl (parseStep text next_items last_position) (none, [])

/-- `ItemExtractor.parse_item`. -/
def parse_item (text item_index : List Char) (next_items : List (List Char))
    (last_position : Nat) : Option ExtractedItem :=
  if (findAll item_index text).isEmpty then none
  else
    match (parseFold text item_index next_items last_position).1 with
    | some m =>
      if (parseFold text item_index next_items last_position).2.isEmpty then none
      else some ⟨item_index,
        clean_item_content (parseFold text item_index next_items last_position).2,
        m.1, m.1 + (parseFold text item_index next_items last_position).2.length⟩
    | none => none

/-- The current 8-K item catalog. -/
def ITEM_LIST_8K : List (List Char) :=
  [str "1.01", str "1.02", str "1.03", str "1.04", str "1.05",
   str "2.01", str "2.02", str "2.03", str "2.04", str "2.05", str "2.06",
   str "3.01", str "3.02", str "3.03",
   str "4.01", str "4.02",
   str "5.01", str "5.02", str "5.03", str "5.04", str "5.05", str "5.06",
   str "5.07", str "5.08",
   str "6.01", str "6.02", str "6.03", str "6.04", str "6.05",
   str "7.01", str "8.01", str "9.01",
   str "SIGNATURE"]

/-- The pre-Aug-2004 8-K item catalog. -/
def ITEM_LIST_8K_OBSOLETE : List (List Char) :=
  [str "1", str "2", str "3", str "4", str "5", str "6", str "7", str "8",
   str "9", str "10", str "11", str "12", str "SIGNATURE"]

def OBSOLETE_CUTOFF_DATE : List Char := str "2004-08-23"

/-- Python string `<`: lexicographic comparison by code point. -/
def pyStrLt : List Char → List Char → Bool
  | [], [] => false
  | [], _ :: _ => true
  | _ :: _, [] => false
  | x :: xs, y :: ys => if x = y then pyStrLt xs ys else decide (x < y)

/-- Python string `>=`. -/
def pyStrGe (x y : List Char) : Bool := !(pyStrLt x y)

/-- `ItemExtractor.get_item_list`. -/
def get_item_list (filing_type filing_date : List Char) : List (List Char) :=
  if filing_type = str "8-K" then
    if pyStrGe filing_date OBSOLETE_CUTOFF_DATE then ITEM_LIST_8K
    else ITEM_LIST_8K_OBSOLETE
  else if filing_type = str "10-K" then
    [str "1", str "1A", str "1B", str "2", str "3", str "4", str "5",
     str "6", str "7", str "7A", str "8", str "9", str "9A", str "9B",
     str "10", str "11", str "12", str "13", str "14", str "15"]
  else []

/-- The result-map key: `item_{label}`, or `signature` for the signature
block, exactly as `extract_all_items` builds it. -/
def item_key (item_index : List Char) : List Char :=
  if item_index = str "SIGNATURE" then str "signature" else str "item_" ++ item_index

/-- The label loop of `extract_all_items`: for each catalog label in order,
the subsequent labels are the remainder of the catalog, and a successful
parse advances the consumed offset to the item's end position. -/
def extractLoop (text : List Char) : List (List Char) → Nat → List (List Char × ExtractedItem)
  | [], _ => []
  | item :: rest, last_pos =>
    match parse_item text item rest last_pos with
    | some r => (item_key item, r) :: extractLoop text rest r.end_pos
    | none => extractLoop text rest last_pos

/-- `ItemExtractor.extract_all_items`, keeping the full `ExtractedItem`
records in emission order. -/
def extract_all_items_full (text filing_type filing_date : List Char) :
    List (List Char × ExtractedItem) :=
  let items_list := get_item_list filing_type filing_date
  if items_list.isEmpty then []
  else extractLoop (clean_text text) items_list 0

/-- `ItemExtractor.extract_all_items`: the returned ordered map from item
key to content. -/
def extract_all_items (text filing_type filing_date : List Char) :
    List (List Char × List Char) :=
  (extract_all_items_full text filing_type filing_date).map
    (fun kv => (kv.1, kv.2.content))

/-!
`remove_numeric_tables`: each table's text is searched for `ITEM\s*{item}`
with the raw catalog label (so a dot in the label is the regex wildcard,
matching any character except newline); a table containing such a header is
kept, otherwise the styled rows are walked and the table is removed at the
first style attribute that declares a background and names no white color.
-/

/-- The raw label part of `ITEM\s*{item}`: characters match literally and
case-insensitively, except `.` which matches any character but newline. -/
def rawLabel : List Char → List Char → Bool
  | [], _ => true
  | p :: ps, c :: cs =>
    (if p = '.' then !(c = '\n') else lowerEq p c) && rawLabel ps cs
  | _ :: _, [] => false

/-- One attempted match of `ITEM\s*{item}` at the head of `s`. -/
def matchRawItemAt (item : List Char) (s : List Char) : Bool :=
  match parseWordCI (str "ITEM") s with
  | some (_, r) => rawLabel item (r.dropWhile isPyWsB)
  | none => false

/-- `re.search(rf"ITEM\s*{item}", table_text, re.IGNORECASE)` as a Bool. -/
def searchRawItem (item : List Char) : List Char → Bool
  | [] => false
  | c :: cs => matchRawItemAt item (c :: cs) || searchRawItem item cs

/-- A parsed `<table>` element: its visible text, and the `style` attribute
values of those of its `tr`/`td`/`th` descendants that carry one. -/
structure HtmlTable where
  text : List Char
  row_styles : List (List Char)
deriving DecidableEq, Repr

/-- Does the table text contain an item-header pattern for some label? -/
def table_has_item (items_list : List (List Char)) (t : HtmlTable) : Bool :=
  items_list.any (fun it => searchRawItem it t.text)

def WHITE_TOKENS : List (List Char) :=
  [str "#fff", str "#ffffff", str "white", str "transparent"]

/-- The style declares a background and names none of the white tokens. -/
def bgNonWhite (style : List Char) : Bool :=
  containsSub (str "background") (lowerStr style) &&
  !(WHITE_TOKENS.any (fun w => containsSub w (lowerStr style)))

/-- The styled-row walk of `remove_numeric_tables`, with its early exit. -/
def styledRowsLoop : List (List Char) → Bool
  | [] => false
  | st :: rest => if bgNonWhite st then true else styledRowsLoop rest

/-- Is this table decomposed by `remove_numeric_tables`? -/
def tableRemoved (items_list : List (List Char)) (t : HtmlTable) : Bool :=
  if table_has_item items_list t then false else styledRowsLoop t.row_styles

/-- `remove_numeric_tables`: the document with the removed tables gone. -/
def remove_numeric_tables (tables : List HtmlTable) (items_list : List (List Char)) :
    List HtmlTable :=
  tables.filter (fun t => !(tableRemoved items_list t))

/-!
Document download.  `get_filing_index_url` builds the index-page URL;
`download_filing` calls it with the CIK taken from the accession number's
first dash-separated component, then resolves the narrative document via
`find_filing_document` with fallback to the filing's reported URL.
-/

/-- A filing record as handed to `download_filing`. -/
structure Filing where
  cik : List Char
  accession_number : List Char
  filing_type : List Char
  url : List Char
deriving DecidableEq, Repr

/-- `get_filing_index_url`: strip leading zeros from the CIK, strip dashes
from the accession number, compose the archive path. -/
def get_filing_index_url (cik accession_number : List Char) : List Char :=
  str "https://www.sec.gov/Archives/edgar/data/" ++
  cik.dropWhile (fun c => c = '0') ++ str "/" ++
  accession_number.filter (fun c => !(c = '-')) ++ str "/-index.html"

/-- Python `s.split('-')[0]`: the characters before the first dash. -/
def splitDashHead (s : List Char) : List Char := s.takeWhile (fun c => !(c = '-'))

/-- The index URL computed inside `download_filing`, whose CIK argument is
`filing.accession_number.split('-')[0]`. -/
def download_index_url (f : Filing) : List Char :=
  get_filing_index_url (splitDashHead f.accession_number) f.accession_number

/-- A table cell of the index page: its text, and the `href` of the first
anchor inside it, when present and non-empty in the Python-truthy sense. -/
structure Cell where
  text : List Char
  href : Option (List Char)
deriving DecidableEq, Repr

structure Row where
  cells : List Cell
deriving DecidableEq, Repr

/-- A parsed table of the index page with its `summary` attribute. -/
structure IndexTable where
  summary : List Char
  rows : List Row
deriving DecidableEq, Repr

def secHost : List Char := str "https://www.sec.gov"

def ixMarker : List Char := str "ix?doc=/"

/-- A single replacement attempt of Python `str.replace`. -/
def replTry (old new : List Char) (s : List Char) : Option (List Char × Nat) :=
  if startsWithL old s then some (new, old.length) else none

/-- Python `s.replace(old, new)` for a non-empty `old`. -/
def pyReplace (s old new : List Char) : List Char := pyScan (replTry old new) s 0

/-- The URL built from a located href: host concatenation, then the
iXBRL-viewer rewrite when the marker occurs. -/
def buildFullUrl (href : List Char) : List Char :=
  let full := secHost ++ href
  if containsSub ixMarker full then pyReplace full ixMarker [] else full

/-- One row of the document-listing table, as `find_filing_document`
examines it: at least four cells, the fourth's stripped text equal to the
filing type, a truthy href in the third, and an HTML-family extension. -/
def rowStep (filing_type : List Char) (r : Row) : Option (List Char) :=
  match r.cells with
  | _ :: _ :: c2 :: c3 :: _ =>
    if pyStripL c3.text = filing_type then
      match c2.href with
      | some href =>
        if !href.isEmpty &&
            (endsWithL (str ".htm") href || endsWithL (str ".html") href) then
          some (buildFullUrl href)
        else none
      | none => none
    else none
  | _ => none

/-- The row loop of `find_filing_document` over the rows after the header
row. -/
def rowsLoop (filing_type : List Char) : List Row → Option (List Char)
  | [] => none
  | r :: rest =>
    match rowStep filing_type r with
    | some u => some u
    | none => rowsLoop filing_type rest

/-- `find_filing_document` over the parsed index page. -/
def find_filing_document : List IndexTable → List Char → Option (List Char)
  | [], _ => none
  | t :: rest, filing_type =>
    if t.summary = str "Document Format Files" then
      match rowsLoop filing_type (t.rows.drop 1) with
      | some u => some u
      | none => find_filing_document rest filing_type
    else find_filing_document rest filing_type

/-- The document-URL selection of `download_filing`: the located URL when
truthy, else the filing's reported primary-document URL. -/
def download_doc_url (tables : List IndexTable) (filing : Filing) : List Char :=
  match find_filing_document tables filing.filing_type with
  | some u => if u.isEmpty then filing.url else u
  | none => filing.url

/-!
`_request_html`: up to `retry_count` attempts; a response body containing
the rate-limit phrase causes sleep-and-retry; a timeout on the final
attempt raises `SECEdgarError`, earlier timeouts sleep and retry; any
other response passes `raise_for_status` (4xx/5xx raises) and is
returned.  When every attempt sees the rate-limit phrase, the `for` loop
ends and the Python function falls through, returning `None`.
-/

def SEC_RATE_LIMIT_MESSAGE : List Char :=
  str "will be managed until action is taken to declare your traffic"

/-- The outcome the network produces for one attempt. -/
inductive AttemptOutcome
  | resp (body : List Char) (status : Nat)
  | timedOut

/-- The observable result of `_request_html`: a returned string, a raised
error, or Python's implicit `None` fall-through. -/
inductive FetchResult
  | ok (text : List Char)
  | secEdgarError
  | httpError (status : Nat)
  | pyNone
deriving DecidableEq, Repr

/-- The attempt loop of `_request_html`; the first argument counts the
remaining attempts of `range(retry_count)`. -/
def requestLoop (env : Nat → AttemptOutcome) (retry_count : Nat) :
    Nat → Nat → FetchResult
  | 0, _ => FetchResult.pyNone
  | r + 1, attempt =>
    match env attempt with
    | AttemptOutcome.timedOut =>
      if attempt = retry_count - 1 then FetchResult.secEdgarError
      else requestLoop env retry_count r (attempt + 1)
    | AttemptOutcome.resp body status =>
      if containsSub SEC_RATE_LIMIT_MESSAGE body then
        requestLoop env retry_count r (attempt + 1)
      else if 400 ≤ status ∧ status < 600 then FetchResult.httpError status
      else FetchResult.ok body

/-- `_request_html` with its attempt budget (the Python default is 5). -/
def _request_html (env : Nat → AttemptOutcome) (retry_count : Nat) : FetchResult :=
  requestLoop env retry_count retry_count 0

/-!
Claim C10: the CIK used for the index URL comes from the accession number,
never from the filing's CIK field.
-/

/-- C10: inside `download_filing` the index-page URL is derived from
`filing.accession_number` alone — the CIK argument is
`accession_number.split('-')[0]` — so two filings with equal accession
numbers get equal index URLs whatever their `cik` fields hold. -/
theorem download_index_url_accession_only (f g : Filing)
    (h : f.accession_number = g.accession_number) :
    download_index_url f = download_index_url g := by
  unfold download_index_url
  rw [h]

def filingC10a : Filing :=
  ⟨str "0000320193", str "0001093691-25-019858", str "8-K",
   str "https://www.sec.gov/a.htm"⟩

def filingC10b : Filing :=
  ⟨str "1093691", str "0001093691-25-019858", str "8-K",
   str "https://www.sec.gov/b.htm"⟩

/-- Witness for C10: two filings with distinct CIK fields but the same
accession number receive the same index URL. -/
theorem download_index_url_accession_only_witness :
    ¬ filingC10a.cik = filingC10b.cik ∧
    filingC10a.accession_number = filingC10b.accession_number ∧
    download_index_url filingC10a = download_index_url filingC10b :=
  ⟨by decide, by decide,
   download_index_url_accession_only filingC10a filingC10b (by decide)⟩

/-!
Claim C2: what `_request_html` does when every attempt sees the rate-limit
phrase.
-/

/-- An environment in which every attempt receives an HTTP 200 response
whose body holds the SEC throttling phrase. -/
def throttledEnv : Nat → AttemptOutcome :=
  fun _ => AttemptOutcome.resp SEC_RATE_LIMIT_MESSAGE 200

/-- C2: when all five attempts of `_request_html` receive a 200 response
containing the rate-limit phrase, the loop is exhausted and the function
falls through, returning Python `None` — it raises no error at all, so no
`RateLimitExhausted` (or any other) error is surfaced, contradicting its
`-> str` annotation and the specified behaviour. -/
theorem request_html_throttled_returns_pyNone :
    _request_html throttledEnv 5 = FetchResult.pyNone := by decide

/-!
Claim C9: retention rule of `remove_numeric_tables`.
-/

theorem styledRowsLoop_eq_any (l : List (List Char)) :
    styledRowsLoop l = l.any bgNonWhite := by
  induction l with
  | nil => rfl
  | cons st rest ih =>
    unfold styledRowsLoop
    cases hb : bgNonWhite st <;> simp [hb, ih]

/-- C9: a table whose text holds an item-header pattern for some catalog
label is kept unconditionally; a table without one is removed exactly when
some styled row declares a non-white background; with neither, the table
is kept. -/
theorem remove_numeric_tables_retention (tables : List HtmlTable)
    (items_list : List (List Char)) (t : HtmlTable) (h : t ∈ tables) :
    (table_has_item items_list t = true →
      t ∈ remove_numeric_tables tables items_list) ∧
    (table_has_item items_list t = false → t.row_styles.any bgNonWhite = true →
      t ∉ remove_numeric_tables tables items_list) ∧
    (table_has_item items_list t = false → t.row_styles.any bgNonWhite = false →
      t ∈ remove_numeric_tables tables items_list) := by
  refine ⟨fun hi => ?_, fun hi hb => ?_, fun hi hb => ?_⟩
  · simp [remove_numeric_tables, List.mem_filter, tableRemoved, hi, h]
  · simp [remove_numeric_tables, List.mem_filter, tableRemoved, hi, h,
          styledRowsLoop_eq_any, hb]
  · simp [remove_numeric_tables, List.mem_filter, tableRemoved, hi, h,
          styledRowsLoop_eq_any, hb]

def c9items : List (List Char) := [str "5.02"]

def tblItem : HtmlTable :=
  ⟨str "Earnings ITEM 5.02 row", [str "background-color:#cceeff"]⟩

def tblColored : HtmlTable :=
  ⟨str "12 34 56", [str "background-color:#cceeff"]⟩

def tblPlain : HtmlTable := ⟨str "narrative text", []⟩

/-- Witness for C9: a colored table holding "ITEM 5.02" is kept, a colored
table without item text is removed, an unstyled narrative table is kept. -/
theorem remove_numeric_tables_retention_witness :
    tblItem ∈ remove_numeric_tables [tblItem, tblColored, tblPlain] c9items ∧
    tblColored ∉ remove_numeric_tables [tblItem, tblColored, tblPlain] c9items ∧
    tblPlain ∈ remove_numeric_tables [tblItem, tblColored, tblPlain] c9items := by
  refine ⟨?_, ?_, ?_⟩
  · exact (remove_numeric_tables_retention _ c9items tblItem
      (by decide)).1 (by decide)
  · exact (remove_numeric_tables_retention _ c9items tblColored
      (by decide)).2.1 (by decide) (by decide)
  · exact (remove_numeric_tables_retention _ c9items tblPlain
      (by decide)).2.2 (by decide) (by decide)

/-!
Claim C3: the form of the keys of the result map.  The code builds
`f"item_{item_index}"` with the catalog label verbatim, so 10-K keys keep
their uppercase letter suffixes.
-/

/-- Is a key entirely free of uppercase letters? -/
def lowercaseOnly (k : List Char) : Bool := k.all (fun c => !c.isUpper)

/-- Counterexample for C3: segmenting a 10-K whose text holds an Item 9A
header emits the key `item_9A`, which is neither `signature` nor written
entirely in lowercase — the claimed all-lowercase key form is violated. -/
theorem extract_all_items_key_not_lowercase :
    (extract_all_items (str "x\nITEM 9A hello") (str "10-K")
        (str "2023-01-01")).map Prod.fst = [str "item_9A"] ∧
    (decide (str "item_9A" = str "signature") ||
      lowercaseOnly (str "item_9A")) = false := by
  exact ⟨by decide, by decide⟩

/-- The key form the code actually guarantees: `signature`, or `item_`
followed verbatim by a non-SIGNATURE catalog label. -/
def keyWellFormed (il : List (List Char)) (k : List Char) : Bool :=
  decide (k = str "signature") ||
  il.any (fun l => !decide (l = str "SIGNATURE") && decide (k = str "item_" ++ l))

theorem extractLoop_key_mem (text : List Char) :
    ∀ (il : List (List Char)) (lp : Nat) (kv : List Char × ExtractedItem),
      kv ∈ extractLoop text il lp → ∃ l, l ∈ il ∧ kv.1 = item_key l := by
  intro il
  induction il with
  | nil => intro lp kv h; simp [extractLoop] at h
  | cons item rest ih =>
    intro lp kv h
    unfold extractLoop at h
    cases hp : parse_item text item rest lp with
    | none =>
      rw [hp] at h
      obtain ⟨l, hl, hk⟩ := ih lp kv h
      exact ⟨l, List.mem_cons_of_mem _ hl, hk⟩
    | some r =>
      rw [hp] at h
      rcases List.mem_cons.mp h with h1 | h2
      · exact ⟨item, List.mem_cons_self _ _, by rw [h1]⟩
      · obtain ⟨l, hl, hk⟩ := ih _ kv h2
        exact ⟨l, List.mem_cons_of_mem _ hl, hk⟩

/-- C3 amended: every key of the result map is `signature` or `item_`
followed by its catalog label verbatim (so not necessarily lowercase). -/
theorem extract_all_items_key_forms (text filing_type filing_date : List Char) :
    (extract_all_items text filing_type filing_date).all
      (fun kv => keyWellFormed (get_item_list filing_type filing_date) kv.1) = true := by
  rw [List.all_eq_true]
  intro kv hkv
  obtain ⟨kv0, h0, rfl⟩ := List.mem_map.mp hkv
  unfold extract_all_items_full at h0
  by_cases he : (get_item_list filing_type filing_date).isEmpty
  · simp [he] at h0
  · simp only [if_neg he] at h0
    obtain ⟨l, hl, hk⟩ := extractLoop_key_mem _ _ _ _ h0
    simp only [keyWellFormed, Bool.or_eq_true, decide_eq_true_eq,
               List.any_eq_true, Bool.and_eq_true, Bool.not_eq_true']
    by_cases hsig : l = str "SIGNATURE"
    · left
      rw [hk, item_key, if_pos hsig]
    · right
      exact ⟨l, hl, by simp [hsig], by rw [hk, item_key, if_neg hsig]⟩

/-!
Claims C6 and C7: counterexamples.
-/

def c6text : List Char := str "A\n1\n2\nB"

/-- Counterexample for C6: `clean_text` is not idempotent.  On
`"A\n1\n2\nB"` the page-number removal deletes the line `1` and, in doing
so, consumes the newline that guarded the line `2`; the second pass then
deletes `2` as well, so cleaning twice differs from cleaning once. -/
theorem clean_text_not_idempotent :
    clean_text (clean_text c6text) ≠ clean_text c6text := by decide

def c7text : List Char :=
  str "\nITEM 1 aa\nITEM 2 b\nITEM 1 cccccccccccccccccccccccc"

/-- Counterexample for C7: the kept occurrence is not the one with the
longest span over all candidates.  The first `ITEM 1` occurrence is bounded
by the `ITEM 2` header, span 10; the second occurrence at offset 19 has no
subsequent-label match after it, so its span would be the remaining
`c7text.length - 19 = 25` characters; the code still keeps the first,
because a candidate with no boundary is only consulted while no best match
exists yet. -/
theorem parse_item_not_longest_overall :
    parse_item c7text (str "1") [str "2"] 0 =
      some ⟨str "1", str "ITEM 1 aa", 0, 10⟩ ∧
    (19, 8) ∈ findAll (str "1") c7text ∧
    findEnd c7text [str "2"] (19 + 8) = none ∧
    10 - 0 < c7text.length - 19 := by
  exact ⟨by decide, by decide, by decide, by decide⟩

/-!
Claims C4 and C5: `find_filing_document` and the fallback of
`download_filing`.
-/

/-- Does the row have at least four cells with the stripped text of the
fourth equal to the filing type? -/
def rowTypeMatches (filing_type : List Char) (r : Row) : Bool :=
  match r.cells with
  | _ :: _ :: _ :: c3 :: _ => decide (pyStripL c3.text = filing_type)
  | _ => false

/-- Does the row's third cell carry an anchor with an href? -/
def rowHasLink (r : Row) : Bool :=
  match r.cells with
  | _ :: _ :: c2 :: _ => c2.href.isSome
  | _ => false

def cellNil : Cell := ⟨[], none⟩

def idxTableC4 : IndexTable :=
  ⟨str "Document Format Files",
   [⟨[cellNil, cellNil, cellNil, cellNil]⟩,
    ⟨[cellNil, cellNil,
      ⟨str "doc", some (str "/Archives/edgar/data/1/doc.txt")⟩,
      ⟨str "8-K", none⟩]⟩]⟩

/-- Counterexample for C4: the index table's only row matches the filing
type `8-K` and links `doc.txt`, yet `find_filing_document` returns none —
a type-matching row with a non-HTML extension is ignored outright, not
merely less preferred. -/
theorem find_filing_document_ignores_non_html :
    ((idxTableC4.rows.drop 1).any
      (fun r => rowTypeMatches (str "8-K") r && rowHasLink r)) = true ∧
    find_filing_document [idxTableC4] (str "8-K") = none := by
  exact ⟨by decide, by decide⟩

/-- The property C4 actually guarantees of a located URL: some
document-listing row matches the filing type and links an
`.htm`/`.html` href whose transform is that URL. -/
def rowYieldsUrl (ft url : List Char) (r : Row) : Bool :=
  match r.cells with
  | _ :: _ :: c2 :: c3 :: _ =>
    decide (pyStripL c3.text = ft) &&
    (match c2.href with
     | some href =>
       !href.isEmpty &&
       (endsWithL (str ".htm") href || endsWithL (str ".html") href) &&
       decide (url = buildFullUrl href)
     | none => false)
  | _ => false

def hasHtmlSource (tables : List IndexTable) (ft url : List Char) : Bool :=
  tables.any (fun t =>
    decide (t.summary = str "Document Format Files") &&
    (t.rows.drop 1).any (rowYieldsUrl ft url))

theorem rowStep_some_yields {ft : List Char} {r : Row} {u : List Char}
    (h : rowStep ft r = some u) : rowYieldsUrl ft u r = true := by
  rcases r with ⟨cells⟩
  rcases cells with _ | ⟨c0, cells⟩
  · simp [rowStep] at h
  rcases cells with _ | ⟨c1, cells⟩
  · simp [rowStep] at h
  rcases cells with _ | ⟨c2, cells⟩
  · simp [rowStep] at h
  rcases cells with _ | ⟨c3, rest⟩
  · simp [rowStep] at h
  by_cases hty : pyStripL c3.text = ft
  · cases hhref : c2.href with
    | none => simp [rowStep, hty, hhref] at h
    | some href =>
      by_cases hhtml : (!href.isEmpty &&
          (endsWithL (str ".htm") href || endsWithL (str ".html") href)) = true
      · have hu : u = buildFullUrl href := by
          simp [rowStep, hty, hhref, hhtml] at h
          exact h.symm
        simp [rowYieldsUrl, hty, hhref, hhtml, hu]
      · simp [rowStep, hty, hhref, hhtml] at h
  · simp [rowStep, hty] at h

theorem rowsLoop_some_mem {ft : List Char} {rows : List Row} {u : List Char}
    (h : rowsLoop ft rows = some u) : ∃ r ∈ rows, rowStep ft r = some u := by
  induction rows with
  | nil => simp [rowsLoop] at h
  | cons r rest ih =>
    unfold rowsLoop at h
    cases hs : rowStep ft r with
    | some v =>
      rw [hs] at h
      simp at h
      exact ⟨r, List.mem_cons_self _ _, by rw [hs, h]⟩
    | none =>
      rw [hs] at h
      simp at h
      obtain ⟨r', hr', hst⟩ := ih h
      exact ⟨r', List.mem_cons_of_mem _ hr', hst⟩

theorem find_filing_document_some_mem {tables : List IndexTable}
    {ft u : List Char} (h : find_filing_document tables ft = some u) :
    ∃ t ∈ tables, t.summary = str "Document Format Files" ∧
      rowsLoop ft (t.rows.drop 1) = some u := by
  induction tables with
  | nil => simp [find_filing_document] at h
  | cons t rest ih =>
    unfold find_filing_document at h
    by_cases hsum : t.summary = str "Document Format Files"
    · rw [if_pos hsum] at h
      cases hrl : rowsLoop ft (t.rows.drop 1) with
      | some v =>
        rw [hrl] at h
        simp at h
        exact ⟨t, List.mem_cons_self _ _, hsum, by rw [hrl, h]⟩
      | none =>
        rw [hrl] at h
        simp at h
        obtain ⟨t', ht', hs', hr'⟩ := ih h
        exact ⟨t', List.mem_cons_of_mem _ ht', hs', hr'⟩
    · rw [if_neg hsum] at h
      obtain ⟨t', ht', hs', hr'⟩ := ih h
      exact ⟨t', List.mem_cons_of_mem _ ht', hs', hr'⟩

/-- C4 amended: every URL `find_filing_document` returns comes from a
type-matching row whose href has an HTML-family extension; rows with other
extensions never produce a result (and with none present the locator
returns none, putting the `download_filing` fallback in charge). -/
theorem find_filing_document_html_only {tables : List IndexTable}
    {ft url : List Char} (h : find_filing_document tables ft = some url) :
    hasHtmlSource tables ft url = true := by
  obtain ⟨t, ht, hsum, hrl⟩ := find_filing_document_some_mem h
  obtain ⟨r, hr, hstep⟩ := rowsLoop_some_mem hrl
  unfold hasHtmlSource
  rw [List.any_eq_true]
  refine ⟨t, ht, ?_⟩
  rw [Bool.and_eq_true]
  exact ⟨by simp [hsum], List.any_eq_true.mpr ⟨r, hr, rowStep_some_yields hstep⟩⟩

def idxTableC4b : IndexTable :=
  ⟨str "Document Format Files",
   [⟨[cellNil, cellNil, cellNil, cellNil]⟩,
    ⟨[cellNil, cellNil,
      ⟨str "doc", some (str "/Archives/edgar/data/1/a.htm")⟩,
      ⟨str "8-K", none⟩]⟩]⟩

/-- Witness for the amended C4. -/
theorem find_filing_document_html_only_witness :
    hasHtmlSource [idxTableC4b] (str "8-K")
      (str "https://www.sec.gov/Archives/edgar/data/1/a.htm") = true :=
  find_filing_document_html_only (by decide)

theorem rowStep_none_of_no_match {ft : List Char} {r : Row}
    (h : rowTypeMatches ft r = false) : rowStep ft r = none := by
  rcases r with ⟨cells⟩
  rcases cells with _ | ⟨c0, cells⟩
  · rfl
  rcases cells with _ | ⟨c1, cells⟩
  · rfl
  rcases cells with _ | ⟨c2, cells⟩
  · rfl
  rcases cells with _ | ⟨c3, rest⟩
  · rfl
  simp only [rowTypeMatches, decide_eq_false_iff_not] at h
  simp [rowStep, h]

theorem rowsLoop_none_of_no_match {ft : List Char} {rows : List Row}
    (h : ∀ r ∈ rows, rowTypeMatches ft r = false) : rowsLoop ft rows = none := by
  induction rows with
  | nil => rfl
  | cons r rest ih =>
    unfold rowsLoop
    rw [rowStep_none_of_no_match (h r (List.mem_cons_self _ _))]
    exact ih (fun r' hr' => h r' (List.mem_cons_of_mem _ hr'))

theorem find_filing_document_none_of_no_match {tables : List IndexTable}
    {ft : List Char}
    (h : ∀ t ∈ tables, t.summary = str "Document Format Files" →
      ∀ r ∈ t.rows.drop 1, rowTypeMatches ft r = false) :
    find_filing_document tables ft = none := by
  induction tables with
  | nil => rfl
  | cons t rest ih =>
    unfold find_filing_document
    by_cases hsum : t.summary = str "Document Format Files"
    · rw [if_pos hsum,
          rowsLoop_none_of_no_match (h t (List.mem_cons_self _ _) hsum)]
      exact ih (fun t' ht' => h t' (List.mem_cons_of_mem _ ht'))
    · rw [if_neg hsum]
      exact ih (fun t' ht' => h t' (List.mem_cons_of_mem _ ht'))

/-- C5: when no row of the index page's document-listing tables (the
tables whose `summary` is `Document Format Files`, the only ones
`find_filing_document` consults) matches the filing's declared type
— in particular when the page parses to no tables at all — the locator
finds nothing and `download_filing` falls back to the filing's
originally reported primary-document URL instead of erroring.  Other
tables of the page, such as a `Data Files` table, are unconstrained. -/
theorem download_doc_url_fallback (tables : List IndexTable) (f : Filing)
    (h : ∀ t ∈ tables, t.summary = str "Document Format Files" →
      ∀ r ∈ t.rows.drop 1, rowTypeMatches f.filing_type r = false) :
    download_doc_url tables f = f.url := by
  unfold download_doc_url
  rw [find_filing_document_none_of_no_match h]

def idxTableC5 : IndexTable :=
  ⟨str "Document Format Files",
   [⟨[cellNil, cellNil, cellNil, cellNil]⟩,
    ⟨[cellNil, cellNil, ⟨str "doc", some (str "/x/doc.htm")⟩,
      ⟨str "10-Q", none⟩]⟩]⟩

/-- A non-listing table of the same page whose row does match the filing
type: `find_filing_document` never consults it, so the fallback still
fires. -/
def idxTableC5data : IndexTable :=
  ⟨str "Data Files",
   [⟨[cellNil, cellNil, cellNil, cellNil]⟩,
    ⟨[cellNil, cellNil, ⟨str "ex", some (str "/x/ex99.htm")⟩,
      ⟨str "8-K", none⟩]⟩]⟩

def filingC5 : Filing :=
  ⟨str "320193", str "0000320193-24-000001", str "8-K",
   str "https://www.sec.gov/primary.htm"⟩

/-- Witness for C5: the document-listing table holds only a `10-Q` row,
while a `Data Files` table of the same page does hold an `8-K` row with
an html link; the locator still falls back to the reported URL of the
`8-K` filing. -/
theorem download_doc_url_fallback_witness :
    download_doc_url [idxTableC5, idxTableC5data] filingC5 = filingC5.url :=
  download_doc_url_fallback [idxTableC5, idxTableC5data] filingC5 (by decide)

/-!
Claim C1: offsets of the emitted items are chained.  The candidate loop of
`parse_item` only ever accepts a match at or after `last_position`, and
`extract_all_items` advances `last_position` to each accepted item's end.
-/

theorem parseStep_skip {text : List Char} {ni : List (List Char)} {lp : Nat}
    {st : Option (Nat × Nat) × List Char} {m : Nat × Nat} (h : m.1 < lp) :
    parseStep text ni lp st m = st := by
  unfold parseStep
  rw [if_pos h]

theorem parseStep_bounded_gt {text : List Char} {ni : List (List Char)}
    {lp : Nat} {st : Option (Nat × Nat) × List Char} {m : Nat × Nat} {e : Nat}
    (h : ¬ m.1 < lp) (hfe : findEnd text ni (m.1 + m.2) = some e)
    (hlen : st.2.length < ((text.drop m.1).take (m.2 + e)).length) :
    parseStep text ni lp st m = (some m, (text.drop m.1).take (m.2 + e)) := by
  unfold parseStep
  rw [if_neg h, hfe]
  dsimp only
  rw [if_pos hlen]
  dsimp only
  rw [if_neg (Option.some_ne_none m)]

theorem parseStep_bounded_le {text : List Char} {ni : List (List Char)}
    {lp : Nat} {st : Option (Nat × Nat) × List Char} {m : Nat × Nat} {e : Nat}
    (h : ¬ m.1 < lp) (hfe : findEnd text ni (m.1 + m.2) = some e)
    (hlen : ¬ st.2.length < ((text.drop m.1).take (m.2 + e)).length) :
    parseStep text ni lp st m =
      (if st.1 = none then (some m, text.drop m.1) else st) := by
  unfold parseStep
  rw [if_neg h, hfe]
  dsimp only
  rw [if_neg hlen]

theorem parseStep_unbounded {text : List Char} {ni : List (List Char)}
    {lp : Nat} {st : Option (Nat × Nat) × List Char} {m : Nat × Nat}
    (h : ¬ m.1 < lp) (hfe : findEnd text ni (m.1 + m.2) = none) :
    parseStep text ni lp st m =
      (if st.1 = none then (some m, text.drop m.1) else st) := by
  unfold parseStep
  rw [if_neg h, hfe]

theorem parseStep_cases (text : List Char) (ni : List (List Char)) (lp : Nat)
    (st : Option (Nat × Nat) × List Char) (m : Nat × Nat) :
    parseStep text ni lp st m = st ∨
    (lp ≤ m.1 ∧ ∃ c, (c = text.drop m.1 ∨
        ∃ e, findEnd text ni (m.1 + m.2) = some e ∧
          c = (text.drop m.1).take (m.2 + e)) ∧
      parseStep text ni lp st m = (some m, c)) := by
  by_cases hm : m.1 < lp
  · left
    exact parseStep_skip hm
  · have hm' : lp ≤ m.1 := Nat.le_of_not_lt hm
    cases hfe : findEnd text ni (m.1 + m.2) with
    | some e =>
      by_cases hlen : st.2.length < ((text.drop m.1).take (m.2 + e)).length
      · right
        exact ⟨hm', (text.drop m.1).take (m.2 + e), Or.inr ⟨e, rfl, rfl⟩,
               parseStep_bounded_gt hm hfe hlen⟩
      · rw [parseStep_bounded_le hm hfe hlen]
        by_cases h1 : st.1 = none
        · right
          exact ⟨hm', text.drop m.1, Or.inl rfl, by rw [if_pos h1]⟩
        · left
          rw [if_neg h1]
    | none =>
      rw [parseStep_unbounded hm hfe]
      by_cases h1 : st.1 = none
      · right
        exact ⟨hm', text.drop m.1, Or.inl rfl, by rw [if_pos h1]⟩
      · left
        rw [if_neg h1]

theorem foldl_parseStep_start {text : List Char} {ni : List (List Char)}
    {lp : Nat} (ms : List (Nat × Nat)) :
    ∀ st, (∀ m0, st.1 = some m0 → lp ≤ m0.1) →
      ∀ m1, (ms.foldl (parseStep text ni lp) st).1 = some m1 → lp ≤ m1.1 := by
  induction ms with
  | nil => intro st h; exact h
  | cons m ms ih =>
    intro st h
    simp only [List.foldl_cons]
    apply ih
    intro m0 h0
    rcases parseStep_cases text ni lp st m with hc | ⟨hle, c, _, hc⟩
    · rw [hc] at h0
      exact h m0 h0
    · rw [hc] at h0
      simp at h0
      rw [← h0]
      exact hle

/-- Dissection of a successful `parse_item`: the returned record is built
from the final state of the candidate loop. -/
theorem parse_item_some_shape {text idx : List Char} {ni : List (List Char)}
    {lp : Nat} {r : ExtractedItem} (h : parse_item text idx ni lp = some r) :
    ∃ m, (parseFold text idx ni lp).1 = some m ∧
      ¬ (parseFold text idx ni lp).2.isEmpty = true ∧
      r = ⟨idx, clean_item_content (parseFold text idx ni lp).2,
           m.1, m.1 + (parseFold text idx ni lp).2.length⟩ := by
  unfold parse_item at h
  by_cases hne : (findAll idx text).isEmpty = true
  · rw [if_pos hne] at h
    cases h
  · rw [if_neg hne] at h
    cases h1 : (parseFold text idx ni lp).1 with
    | none => rw [h1] at h; cases h
    | some m =>
      rw [h1] at h
      simp only at h
      by_cases h2 : (parseFold text idx ni lp).2.isEmpty = true
      · rw [if_pos h2] at h
        cases h
      · rw [if_neg h2] at h
        exact ⟨m, rfl, h2, (Option.some.inj h).symm⟩

theorem parse_item_start_end {text idx : List Char} {ni : List (List Char)}
    {lp : Nat} {r : ExtractedItem} (h : parse_item text idx ni lp = some r) :
    lp ≤ r.start_pos ∧ r.start_pos < r.end_pos := by
  obtain ⟨m, h1, h2, hr⟩ := parse_item_some_shape h
  have hstart := @foldl_parseStep_start text ni lp (findAll idx text)
    (none, []) (by intro m0 h0; cases h0) m h1
  have hpos : 0 < (parseFold text idx ni lp).2.length := by
    cases hl : (parseFold text idx ni lp).2 with
    | nil => rw [hl] at h2; simp at h2
    | cons a l => simp
  constructor
  · rw [hr]
    exact hstart
  · rw [hr]
    simp only
    omega

theorem extractLoop_start_ge (text : List Char) :
    ∀ (il : List (List Char)) (lp : Nat) (kv : List Char × ExtractedItem),
      kv ∈ extractLoop text il lp →
        lp ≤ kv.2.start_pos ∧ kv.2.start_pos < kv.2.end_pos := by
  intro il
  induction il with
  | nil => intro lp kv h; simp [extractLoop] at h
  | cons item rest ih =>
    intro lp kv h
    unfold extractLoop at h
    cases hp : parse_item text item rest lp with
    | none =>
      rw [hp] at h
      exact ih lp kv h
    | some r =>
      rw [hp] at h
      rcases List.mem_cons.mp h with h1 | h2
      · have hse := parse_item_start_end hp
        rw [h1]
        exact hse
      · have hse := parse_item_start_end hp
        have ht := ih r.end_pos kv h2
        exact ⟨le_trans (le_trans hse.1 (le_of_lt hse.2)) ht.1, ht.2⟩

theorem extractLoop_chain (text : List Char) :
    ∀ (il : List (List Char)) (lp : Nat),
      List.Chain' (fun a b => a.end_pos ≤ b.start_pos)
        ((extractLoop text il lp).map Prod.snd) := by
  intro il
  induction il with
  | nil => intro lp; simp [extractLoop]
  | cons item rest ih =>
    intro lp
    unfold extractLoop
    cases hp : parse_item text item rest lp with
    | none => exact ih lp
    | some r =>
      simp only [List.map_cons]
      rw [List.chain'_cons']
      refine ⟨?_, ih r.end_pos⟩
      intro y hy
      have hym : y ∈ (extractLoop text rest r.end_pos).map Prod.snd :=
        List.mem_of_mem_head? hy
      obtain ⟨kv, hkv, rfl⟩ := List.mem_map.mp hym
      exact (extractLoop_start_ge text rest r.end_pos kv hkv).1

/-- C1: in emission (catalog) order, each extracted item's start offset is
at least the end offset of the previously emitted one, and every item's
range is nonempty — so the offset ranges are pairwise non-overlapping and
sorted by start offset. -/
theorem extract_all_items_offsets (text filing_type filing_date : List Char) :
    List.Chain' (fun a b => a.end_pos ≤ b.start_pos)
      ((extract_all_items_full text filing_type filing_date).map Prod.snd) ∧
    ((extract_all_items_full text filing_type filing_date).map Prod.snd).all
      (fun it => decide (it.start_pos < it.end_pos)) = true := by
  constructor
  · unfold extract_all_items_full
    by_cases he : (get_item_list filing_type filing_date).isEmpty
    · simp [he]
    · simp only [if_neg he]
      exact extractLoop_chain _ _ _
  · rw [List.all_eq_true]
    intro it hit
    unfold extract_all_items_full at hit
    by_cases he : (get_item_list filing_type filing_date).isEmpty
    · simp [he] at hit
    · simp only [if_neg he] at hit
      obtain ⟨kv, hkv, rfl⟩ := List.mem_map.mp hit
      simpa using (extractLoop_start_ge _ _ _ kv hkv).2

/-!
Claim C8: every emitted entry has non-empty content.  Every accepted
candidate span starts with the matched header group, the group holds a
non-whitespace character (the `I` of ITEM or the `S` of SIGNATURE), and
`_clean_item_content` only collapses whitespace, so the cleaned content
keeps that character.
-/

/-- A list containing at least one non-whitespace character. -/
def hasInk (l : List Char) : Prop := ∃ ch ∈ l, isPyWsB ch = false

theorem ws_cases {c : Char} (h : isPyWsB c = true) :
    c = ' ' ∨ c = '\t' ∨ c = '\n' ∨ c = '\x0d' ∨ c = '\x0b' ∨ c = '\x0c' := by
  simp [isPyWsB] at h
  tauto

theorem lowerEq_I_not_ws {ch : Char} (h : lowerEq 'I' ch = true) :
    isPyWsB ch = false := by
  cases hw : isPyWsB ch
  · rfl
  · rcases ws_cases hw with h1 | h1 | h1 | h1 | h1 | h1 <;>
      (subst h1; exact absurd h (by decide))

theorem lowerEq_S_not_ws {ch : Char} (h : lowerEq 'S' ch = true) :
    isPyWsB ch = false := by
  cases hw : isPyWsB ch
  · rfl
  · rcases ws_cases hw with h1 | h1 | h1 | h1 | h1 | h1 <;>
      (subst h1; exact absurd h (by decide))

theorem parseWordCI_append : ∀ (w s g r : List Char),
    parseWordCI w s = some (g, r) → s = g ++ r := by
  intro w
  induction w with
  | nil =>
    intro s g r h
    simp [parseWordCI] at h
    simp [h.1, h.2]
  | cons p ps ih =>
    intro s g r h
    rcases s with _ | ⟨c, cs⟩
    · simp [parseWordCI] at h
    · unfold parseWordCI at h
      by_cases hle : lowerEq p c = true
      · rw [if_pos hle] at h
        cases hmt : parseWordCI ps cs with
        | none => rw [hmt] at h; cases h
        | some gr =>
          obtain ⟨g', r'⟩ := gr
          rw [hmt] at h
          simp at h
          rw [← h.1, ← h.2, ih cs g' r' hmt]
          rfl
      · rw [if_neg hle] at h
        cases h

theorem parseWordCI_head {p : Char} {ps s g r : List Char}
    (h : parseWordCI (p :: ps) s = some (g, r)) :
    ∃ ch t, g = ch :: t ∧ lowerEq p ch = true := by
  rcases s with _ | ⟨c, cs⟩
  · simp [parseWordCI] at h
  · unfold parseWordCI at h
    by_cases hle : lowerEq p c = true
    · rw [if_pos hle] at h
      cases hmt : parseWordCI ps cs with
      | none => rw [hmt] at h; cases h
      | some gr =>
        obtain ⟨g', r'⟩ := gr
        rw [hmt] at h
        simp at h
        exact ⟨c, g', h.1.symm, hle⟩
    · rw [if_neg hle] at h
      cases h

theorem matchToks_append : ∀ (ts : List PTok) (s g r : List Char),
    matchToks ts s = some (g, r) → s = g ++ r := by
  intro ts
  induction ts with
  | nil =>
    intro s g r h
    simp [matchToks] at h
    simp [h.1, h.2]
  | cons t ts ih =>
    intro s g r h
    cases t with
    | lit p =>
      rcases s with _ | ⟨c, cs⟩
      · simp [matchToks] at h
      · unfold matchToks at h
        by_cases hle : lowerEq p c = true
        · rw [if_pos hle] at h
          cases hmt : matchToks ts cs with
          | none => rw [hmt] at h; cases h
          | some gr =>
            obtain ⟨g', r'⟩ := gr
            rw [hmt] at h
            simp at h
            rw [← h.1, ← h.2, ih cs g' r' hmt]
            rfl
        · rw [if_neg hle] at h
          cases h
    | wsLetter p =>
      unfold matchToks at h
      split at h
      next c cs hd =>
        split at h
        next hle =>
          split at h
          next g' r' hmt =>
            simp at h
            rw [← h.1, ← h.2]
            conv_lhs => rw [← List.takeWhile_append_dropWhile isBlankB s, hd,
              ih cs g' r' hmt]
            simp
          next => cases h
        next => cases h
      next => cases h

theorem sigAltS_append {r g r2 : List Char} (h : sigAltS r = some (g, r2)) :
    r = g ++ r2 := by
  unfold sigAltS at h
  split at h
  · split at h
    · have hp := Option.some.inj h
      cases hp
      rfl
    · cases h
  · cases h

theorem sigAltParen_append {r g r2 : List Char}
    (h : sigAltParen r = some (g, r2)) : r = g ++ r2 := by
  unfold sigAltParen at h
  split at h
  · split at h
    · have hp := Option.some.inj h
      cases hp
      rfl
    · cases h
  · cases h

theorem sigAltEmpty_append {r g r2 : List Char}
    (h : sigAltEmpty r = some (g, r2)) : r = g ++ r2 := by
  unfold sigAltEmpty at h
  split at h
  · split at h
    · have hp := Option.some.inj h
      cases hp
      rfl
    · cases h
  · cases h

theorem sigTail_append {r g r2 : List Char} (h : sigTail r = some (g, r2)) :
    r = g ++ r2 := by
  unfold sigTail at h
  cases h1 : sigAltS r with
  | some x =>
    rw [h1] at h
    simp at h
    subst h
    exact sigAltS_append h1
  | none =>
    rw [h1] at h
    cases h2 : sigAltParen r with
    | some x =>
      rw [h2] at h
      simp at h
      subst h
      exact sigAltParen_append h2
    | none =>
      rw [h2] at h
      simp at h
      exact sigAltEmpty_append h

theorem matchItemTail_some {item pre rest g r' : List Char}
    (h : matchItemTail item pre rest = some (g, r')) :
    (∃ tail, g = pre ++ tail) ∧ pre ++ rest = g ++ r' := by
  unfold matchItemTail at h
  cases hmt : matchToks (adjust_item_tokens item) (rest.dropWhile isPyWsB) with
  | none => rw [hmt] at h; cases h
  | some gr =>
    obtain ⟨g3, r3⟩ := gr
    rw [hmt] at h
    rcases r3 with _ | ⟨d, r4⟩
    · simp at h
    · simp only at h
      by_cases hd : isDelimB d = true
      · rw [if_pos hd] at h
        simp at h
        constructor
        · exact ⟨rest.takeWhile isPyWsB ++ g3 ++ [d], by rw [← h.1]; simp⟩
        · rw [← h.1, ← h.2]
          have hrest : rest = rest.takeWhile isPyWsB ++ (g3 ++ (d :: r4)) := by
            conv_lhs => rw [← List.takeWhile_append_dropWhile isPyWsB rest,
              matchToks_append _ _ _ _ hmt]
          conv_lhs => rw [hrest]
          simp
      · rw [if_neg hd] at h
        cases h

/-- A successful header match decomposes the input as the matched group
followed by the remainder, and the group holds a non-whitespace
character. -/
theorem matchHeaderAt_append {item s g r : List Char}
    (h : matchHeaderAt item s = some (g, r)) :
    s = g ++ r ∧ ∃ ch ∈ g, isPyWsB ch = false := by
  rcases s with _ | ⟨c, t⟩
  · simp [matchHeaderAt] at h
  simp only [matchHeaderAt] at h
  by_cases hc : c = '\n'
  · subst hc
    rw [if_pos rfl] at h
    unfold matchHeaderCore at h
    by_cases hsig : item = str "SIGNATURE"
    · rw [if_pos hsig] at h
      split at h
      next gw rw0 hw =>
        split at h
        next g2 r2 hst =>
          have hp := Option.some.inj h
          obtain ⟨h1, h2⟩ := Prod.ext_iff.mp hp
          simp only at h1 h2
          obtain ⟨ch, tch, hch, hchle⟩ := parseWordCI_head hw
          have ht : t = t.takeWhile isBlankB ++ (gw ++ (g2 ++ r2)) := by
            conv_lhs => rw [← List.takeWhile_append_dropWhile isBlankB t,
              parseWordCI_append _ _ _ _ hw, sigTail_append hst]
          constructor
          · rw [← h1, ← h2]
            conv_lhs => rw [ht]
            simp
          · refine ⟨ch, ?_, lowerEq_S_not_ws hchle⟩
            rw [← h1, hch]
            simp
        next => cases h
      next => cases h
    · rw [if_neg hsig] at h
      split at h
      next gw rw0 hw =>
        obtain ⟨ch, tch, hch, hchle⟩ := parseWordCI_head hw
        have ht : t = t.takeWhile isBlankB ++ (gw ++ rw0) := by
          conv_lhs => rw [← List.takeWhile_append_dropWhile isBlankB t,
            parseWordCI_append _ _ _ _ hw]
        split at h
        next c2 cs =>
          split at h
          next hplu =>
            obtain ⟨⟨tail, htail⟩, happ⟩ := matchItemTail_some h
            constructor
            · rw [← happ]
              conv_lhs => rw [ht]
              simp
            · refine ⟨ch, ?_, lowerEq_I_not_ws hchle⟩
              rw [htail, hch]
              simp
          next hplu =>
            obtain ⟨⟨tail, htail⟩, happ⟩ := matchItemTail_some h
            constructor
            · rw [← happ]
              conv_lhs => rw [ht]
              simp
            · refine ⟨ch, ?_, lowerEq_I_not_ws hchle⟩
              rw [htail, hch]
              simp
        next =>
          obtain ⟨⟨tail, htail⟩, happ⟩ := matchItemTail_some h
          constructor
          · rw [← happ]
            conv_lhs => rw [ht]
            simp
          · refine ⟨ch, ?_, lowerEq_I_not_ws hchle⟩
            rw [htail, hch]
            simp
      next => cases h
  · rw [if_neg hc] at h
    cases h


theorem drop_succ_eq {text : List Char} {i : Nat} {c : Char} {t : List Char}
    (h : text.drop i = c :: t) : t = text.drop (i + 1) := by
  have h2 : (text.drop i).drop 1 = text.drop (i + 1) := List.drop_drop 1 i text
  rw [h] at h2
  simpa using h2

/-- Every pair emitted by the match scanner records an actual header match
at its offset, with the recorded group length. -/
theorem findItf_sound (item text : List Char) :
    ∀ (s : List Char) (k i : Nat), s = text.drop i →
      ∀ p ∈ findItf item s k i,
        ∃ g r, matchHeaderAt item (text.drop p.1) = some (g, r) ∧
          g.length = p.2 := by
  intro s
  induction s with
  | nil =>
    intro k i hs p hp
    simp [findItf] at hp
  | cons c t ih =>
    intro k i hs p hp
    cases k with
    | succ k' =>
      simp only [findItf] at hp
      exact ih k' (i + 1) (drop_succ_eq hs.symm) p hp
    | zero =>
      simp only [findItf] at hp
      split at hp
      next g r' hm =>
        rcases List.mem_cons.mp hp with h1 | h1
        · subst h1
          refine ⟨g, r', ?_, rfl⟩
          rw [← hs]
          exact hm
        · exact ih (g.length - 1) (i + 1) (drop_succ_eq hs.symm) p h1
      next hm =>
        exact ih 0 (i + 1) (drop_succ_eq hs.symm) p hp

theorem foldl_parseStep_ink {item text : List Char} {ni : List (List Char)}
    {lp : Nat} :
    ∀ (ms : List (Nat × Nat)) (st : Option (Nat × Nat) × List Char),
      (∀ p ∈ ms, ∃ g r, matchHeaderAt item (text.drop p.1) = some (g, r) ∧
        g.length = p.2) →
      (st.1.isSome = true → hasInk st.2) →
      ((ms.foldl (parseStep text ni lp) st).1.isSome = true →
        hasInk (ms.foldl (parseStep text ni lp) st).2) := by
  intro ms
  induction ms with
  | nil => intro st _ h; exact h
  | cons m ms ih =>
    intro st hms hst
    simp only [List.foldl_cons]
    apply ih _ (fun p hp => hms p (List.mem_cons_of_mem _ hp))
    intro hsome
    rcases parseStep_cases text ni lp st m with hc | ⟨hle, c, hcs, hc⟩
    · rw [hc] at hsome ⊢
      exact hst hsome
    · rw [hc]
      obtain ⟨g, r, hmm, hlen⟩ := hms m (List.mem_cons_self _ _)
      obtain ⟨happ, ch, hch, hws⟩ := matchHeaderAt_append hmm
      rcases hcs with h1 | ⟨e, hfe, h1⟩
      · subst h1
        refine ⟨ch, ?_, hws⟩
        rw [happ]
        exact List.mem_append_left _ hch
      · subst h1
        refine ⟨ch, ?_, hws⟩
        rw [happ, ← hlen, List.take_append_eq_append_take]
        exact List.mem_append_left _
          ((List.take_of_length_le (Nat.le_add_right _ _)).symm ▸ hch)

theorem parse_item_content_ink {text idx : List Char} {ni : List (List Char)}
    {lp : Nat} {r : ExtractedItem} (h : parse_item text idx ni lp = some r) :
    hasInk (parseFold text idx ni lp).2 := by
  obtain ⟨m, h1, h2, hr⟩ := parse_item_some_shape h
  apply @foldl_parseStep_ink idx text ni lp (findAll idx text) (none, [])
  · intro p hp
    exact findItf_sound idx text text 0 0 (by simp) p hp
  · intro hs
    simp at hs
  · show (parseFold text idx ni lp).1.isSome = true
    rw [h1]
    rfl

theorem take_length_takeWhile (p : Char → Bool) :
    ∀ l : List Char, l.take (l.takeWhile p).length = l.takeWhile p := by
  intro l
  induction l with
  | nil => rfl
  | cons a t ih =>
    by_cases h : p a = true
    · simp [List.takeWhile_cons, h, ih]
    · simp [List.takeWhile_cons, h]

theorem spacesTry_some {s o : List Char} {n : Nat}
    (h : spacesTry s = some (o, n)) :
    ∃ t, s = ' ' :: ' ' :: t ∧ o = str " " ∧
      n = 2 + (t.takeWhile (fun c => c = ' ')).length := by
  unfold spacesTry at h
  split at h
  next a b t =>
    split at h
    next hab =>
      cases Option.some.inj h
      exact ⟨t, by rw [hab.1, hab.2], rfl, rfl⟩
    next => cases h
  next => cases h

theorem newlines3Try_some {s o : List Char} {n : Nat}
    (h : newlines3Try s = some (o, n)) :
    ∃ t, s = '\n' :: '\n' :: '\n' :: t ∧ o = str "\n\n" ∧
      n = 3 + (t.takeWhile (fun c => c = '\n')).length := by
  unfold newlines3Try at h
  split at h
  next a b c2 t =>
    split at h
    next habc =>
      cases Option.some.inj h
      exact ⟨t, by rw [habc.1, habc.2.1, habc.2.2], rfl, rfl⟩
    next => cases h
  next => cases h

theorem mem_pyScan_spaces {c : Char} (hc : ¬ c = ' ') :
    ∀ (n : Nat) (s : List Char), s.length ≤ n → c ∈ s →
      c ∈ pyScan spacesTry s 0 := by
  intro n
  induction n with
  | zero =>
    intro s hl hm
    have : s = [] := List.eq_nil_of_length_eq_zero (Nat.le_zero.mp hl)
    subst this
    simp at hm
  | succ n ih =>
    intro s hl hm
    cases hst : spacesTry s with
    | some vn =>
      obtain ⟨o, k⟩ := vn
      obtain ⟨t, hs, ho, hn⟩ := spacesTry_some hst
      have hmem : c ∈ s.drop k := by
        have hsplit : c ∈ s.take k ++ s.drop k := by
          rw [List.take_append_drop]
          exact hm
        rcases List.mem_append.mp hsplit with h1 | h1
        · exfalso
          subst hs
          rw [show k = ((t.takeWhile (fun c => c = ' ')).length + 1) + 1 by
                omega] at h1
          simp only [List.take_succ_cons] at h1
          rcases List.mem_cons.mp h1 with h2 | h2
          · exact hc h2
          rcases List.mem_cons.mp h2 with h3 | h3
          · exact hc h3
          rw [take_length_takeWhile] at h3
          exact hc (by simpa using List.mem_takeWhile_imp h3)
        · exact h1
      have hlen2 : (s.drop k).length ≤ n := by
        subst hs
        simp at hl ⊢
        omega
      rw [pyScan_match (by subst hs; simp) (by omega) hst]
      exact List.mem_append_right _ (ih (s.drop k) hlen2 hmem)
    | none =>
      rcases s with _ | ⟨a, t⟩
      · simp at hm
      rw [pyScan_copy hst]
      rcases List.mem_cons.mp hm with h1 | h1
      · rw [h1]
        exact List.mem_cons_self _ _
      · have hlt : t.length ≤ n := by
          simp at hl
          omega
        exact List.mem_cons_of_mem _ (ih t hlt h1)

theorem mem_pyScan_newlines {c : Char} (hc : ¬ c = '\n') :
    ∀ (n : Nat) (s : List Char), s.length ≤ n → c ∈ s →
      c ∈ pyScan newlines3Try s 0 := by
  intro n
  induction n with
  | zero =>
    intro s hl hm
    have : s = [] := List.eq_nil_of_length_eq_zero (Nat.le_zero.mp hl)
    subst this
    simp at hm
  | succ n ih =>
    intro s hl hm
    cases hst : newlines3Try s with
    | some vn =>
      obtain ⟨o, k⟩ := vn
      obtain ⟨t, hs, ho, hn⟩ := newlines3Try_some hst
      have hmem : c ∈ s.drop k := by
        have hsplit : c ∈ s.take k ++ s.drop k := by
          rw [List.take_append_drop]
          exact hm
        rcases List.mem_append.mp hsplit with h1 | h1
        · exfalso
          subst hs
          rw [show k = (((t.takeWhile (fun c => c = '\n')).length + 1) + 1) + 1 by
                omega] at h1
          simp only [List.take_succ_cons] at h1
          rcases List.mem_cons.mp h1 with h2 | h2
          · exact hc h2
          rcases List.mem_cons.mp h2 with h3 | h3
          · exact hc h3
          rcases List.mem_cons.mp h3 with h4 | h4
          · exact hc h4
          rw [take_length_takeWhile] at h4
          exact hc (by simpa using List.mem_takeWhile_imp h4)
        · exact h1
      have hlen2 : (s.drop k).length ≤ n := by
        subst hs
        simp at hl ⊢
        omega
      rw [pyScan_match (by subst hs; simp) (by omega) hst]
      exact List.mem_append_right _ (ih (s.drop k) hlen2 hmem)
    | none =>
      rcases s with _ | ⟨a, t⟩
      · simp at hm
      rw [pyScan_copy hst]
      rcases List.mem_cons.mp hm with h1 | h1
      · rw [h1]
        exact List.mem_cons_self _ _
      · have hlt : t.length ≤ n := by
          simp at hl
          omega
        exact List.mem_cons_of_mem _ (ih t hlt h1)

theorem mem_dropWhile_of_neg {p : Char → Bool} {c : Char} {l : List Char}
    (hp : p c = false) (h : c ∈ l) : c ∈ l.dropWhile p := by
  have hsplit : c ∈ l.takeWhile p ++ l.dropWhile p := by
    rw [List.takeWhile_append_dropWhile]
    exact h
  rcases List.mem_append.mp hsplit with h1 | h1
  · have := List.mem_takeWhile_imp h1
    rw [hp] at this
    cases this
  · exact h1

theorem mem_pyStripL {c : Char} {l : List Char} (hc : isPyWsB c = false)
    (h : c ∈ l) : c ∈ pyStripL l := by
  unfold pyStripL
  rw [List.mem_reverse]
  apply mem_dropWhile_of_neg hc
  rw [List.mem_reverse]
  exact mem_dropWhile_of_neg hc h

theorem clean_item_content_ink_ne_nil {l : List Char} (h : hasInk l) :
    clean_item_content l ≠ [] := by
  obtain ⟨ch, hm, hws⟩ := h
  have h1 : ¬ ch = ' ' := by
    intro he
    subst he
    exact absurd hws (by decide)
  have h2 : ¬ ch = '\n' := by
    intro he
    subst he
    exact absurd hws (by decide)
  have hm1 := mem_pyScan_spaces h1 l.length l le_rfl hm
  have hm2 := mem_pyScan_newlines h2 (pyScan spacesTry l 0).length _ le_rfl hm1
  exact List.ne_nil_of_mem (mem_pyStripL hws hm2)

theorem parse_item_content_ne {text idx : List Char} {ni : List (List Char)}
    {lp : Nat} {r : ExtractedItem} (h : parse_item text idx ni lp = some r) :
    r.content ≠ [] := by
  obtain ⟨m, h1, h2, hr⟩ := parse_item_some_shape h
  rw [hr]
  exact clean_item_content_ink_ne_nil (parse_item_content_ink h)

theorem extractLoop_content_ne (text : List Char) :
    ∀ (il : List (List Char)) (lp : Nat) (kv : List Char × ExtractedItem),
      kv ∈ extractLoop text il lp → kv.2.content ≠ [] := by
  intro il
  induction il with
  | nil => intro lp kv h; simp [extractLoop] at h
  | cons item rest ih =>
    intro lp kv h
    unfold extractLoop at h
    cases hp : parse_item text item rest lp with
    | none =>
      rw [hp] at h
      exact ih lp kv h
    | some r =>
      rw [hp] at h
      rcases List.mem_cons.mp h with h1 | h2
      · rw [h1]
        exact parse_item_content_ne hp
      · exact ih _ kv h2

/-- C8: every entry of the result map has non-empty content after the
space/newline collapsing and trimming of `_clean_item_content`; labels
whose sections are not found are simply absent, and an empty-content entry
is never emitted. -/
theorem extract_all_items_contents_nonempty (text filing_type filing_date : List Char) :
    (extract_all_items text filing_type filing_date).all
      (fun kv => !kv.2.isEmpty) = true := by
  rw [List.all_eq_true]
  intro kv hkv
  obtain ⟨kv0, h0, rfl⟩ := List.mem_map.mp hkv
  unfold extract_all_items_full at h0
  by_cases he : (get_item_list filing_type filing_date).isEmpty
  · simp [he] at h0
  · simp only [if_neg he] at h0
    simpa using extractLoop_content_ne _ _ _ _ h0

/-!
Claim C7, amended half: the kept span is at least as long as the span of
every candidate occurrence that is bounded by a subsequent-label header.
(The counterexample above shows the comparison does not extend to
candidates with no boundary, which are consulted only while no best match
exists.)
-/

theorem parseStep_inv1 {text : List Char} {ni : List (List Char)} {lp : Nat}
    {st : Option (Nat × Nat) × List Char} {m : Nat × Nat}
    (h : st.1 = none → st.2 = []) :
    (parseStep text ni lp st m).1 = none → (parseStep text ni lp st m).2 = [] := by
  rcases parseStep_cases text ni lp st m with hc | ⟨_, c, _, hc⟩
  · rw [hc]
    exact h
  · rw [hc]
    intro h1
    simp at h1

theorem parseStep_mono {text : List Char} {ni : List (List Char)} {lp : Nat}
    {st : Option (Nat × Nat) × List Char} {m : Nat × Nat}
    (hinv : st.1 = none → st.2 = []) :
    st.2.length ≤ (parseStep text ni lp st m).2.length := by
  by_cases hm : m.1 < lp
  · rw [parseStep_skip hm]
  · cases hfe : findEnd text ni (m.1 + m.2) with
    | some e =>
      by_cases hlen : st.2.length < ((text.drop m.1).take (m.2 + e)).length
      · rw [parseStep_bounded_gt hm hfe hlen]
        simp only
        omega
      · rw [parseStep_bounded_le hm hfe hlen]
        by_cases h1 : st.1 = none
        · rw [if_pos h1]
          simp [hinv h1]
        · rw [if_neg h1]
    | none =>
      rw [parseStep_unbounded hm hfe]
      by_cases h1 : st.1 = none
      · rw [if_pos h1]
        simp [hinv h1]
      · rw [if_neg h1]

theorem parseStep_bound {text : List Char} {ni : List (List Char)} {lp : Nat}
    {st : Option (Nat × Nat) × List Char} {m : Nat × Nat} {e : Nat}
    (_hinv : st.1 = none → st.2 = [])
    (hm : ¬ m.1 < lp) (hfe : findEnd text ni (m.1 + m.2) = some e) :
    ((text.drop m.1).take (m.2 + e)).length ≤
      (parseStep text ni lp st m).2.length := by
  by_cases hlen : st.2.length < ((text.drop m.1).take (m.2 + e)).length
  · rw [parseStep_bounded_gt hm hfe hlen]
  · rw [parseStep_bounded_le hm hfe hlen]
    by_cases h1 : st.1 = none
    · rw [if_pos h1]
      rw [_hinv h1] at hlen
      simp at hlen
      simp [hlen]
    · rw [if_neg h1]
      omega

theorem foldl_parseStep_inv1 {text : List Char} {ni : List (List Char)}
    {lp : Nat} :
    ∀ (ms : List (Nat × Nat)) (st : Option (Nat × Nat) × List Char),
      (st.1 = none → st.2 = []) →
      ((ms.foldl (parseStep text ni lp) st).1 = none →
        (ms.foldl (parseStep text ni lp) st).2 = []) := by
  intro ms
  induction ms with
  | nil => intro st h; exact h
  | cons m ms ih =>
    intro st h
    simp only [List.foldl_cons]
    exact ih _ (parseStep_inv1 h)

theorem foldl_parseStep_mono {text : List Char} {ni : List (List Char)}
    {lp : Nat} :
    ∀ (ms : List (Nat × Nat)) (st : Option (Nat × Nat) × List Char),
      (st.1 = none → st.2 = []) →
      st.2.length ≤ (ms.foldl (parseStep text ni lp) st).2.length := by
  intro ms
  induction ms with
  | nil => intro st _; exact le_rfl
  | cons m ms ih =>
    intro st h
    simp only [List.foldl_cons]
    exact le_trans (parseStep_mono h) (ih _ (parseStep_inv1 h))

theorem foldl_parseStep_bound {text : List Char} {ni : List (List Char)}
    {lp : Nat} :
    ∀ (ms : List (Nat × Nat)) (st : Option (Nat × Nat) × List Char),
      (st.1 = none → st.2 = []) →
      ∀ p ∈ ms, ¬ p.1 < lp → ∀ e, findEnd text ni (p.1 + p.2) = some e →
        ((text.drop p.1).take (p.2 + e)).length ≤
          (ms.foldl (parseStep text ni lp) st).2.length := by
  intro ms
  induction ms with
  | nil => intro st _ p hp; simp at hp
  | cons m ms ih =>
    intro st h p hp hple e hfe
    simp only [List.foldl_cons]
    rcases List.mem_cons.mp hp with h1 | h1
    · subst h1
      exact le_trans (parseStep_bound h hple hfe)
        (foldl_parseStep_mono ms _ (parseStep_inv1 h))
    · exact ih _ (parseStep_inv1 h) p h1 hple e hfe

/-- C7 amended: for a successful `parse_item`, the kept span (end minus
start offset) is at least the span of every candidate occurrence at or
after `last_position` whose end boundary is found among the subsequent
labels; candidates with no such boundary take all remaining text but
participate only while no best match has been accepted, so they are not
covered by the comparison. -/
theorem parse_item_longest_among_bounded {text idx : List Char}
    {ni : List (List Char)} {lp : Nat} {r : ExtractedItem}
    (h : parse_item text idx ni lp = some r) :
    ∀ p ∈ findAll idx text, lp ≤ p.1 →
      ∀ e, findEnd text ni (p.1 + p.2) = some e →
        ((text.drop p.1).take (p.2 + e)).length ≤ r.end_pos - r.start_pos := by
  intro p hp hple e hfe
  obtain ⟨m, h1, h2, hr⟩ := parse_item_some_shape h
  have hb : ((text.drop p.1).take (p.2 + e)).length ≤
      (parseFold text idx ni lp).2.length :=
    foldl_parseStep_bound (findAll idx text) (none, []) (fun _ => rfl)
      p hp (by omega) e hfe
  rw [hr]
  simp only
  omega

def it7 : ExtractedItem := ⟨str "1", str "ITEM 1 aa", 0, 10⟩

/-- Witness for the amended C7: on the counterexample text the kept span
(10) is at least the bounded first candidate's span `8 + 2 = 10`. -/
theorem parse_item_longest_among_bounded_witness :
    parse_item c7text (str "1") [str "2"] 0 = some it7 ∧
    (0, 8) ∈ findAll (str "1") c7text ∧
    findEnd c7text [str "2"] (0 + 8) = some 2 ∧
    ((c7text.drop 0).take (8 + 2)).length ≤ it7.end_pos - it7.start_pos := by
  refine ⟨by decide, by decide, by decide, ?_⟩
  exact @parse_item_longest_among_bounded c7text (str "1") [str "2"] 0 it7
    (by decide) (0, 8) (by decide) (by decide) 2 (by decide)

/-!
Claim C6, amended half: the header-repair step is idempotent.  The key
observations: a newline behaves exactly like end-of-input at every
decision point of the header pattern (so a match depends only on the
newline-free prefix after the leading newline), the scanner preserves
newline-free prefixes, and a repaired header re-matches and is replaced by
itself.
-/

theorem takeWhile_append_stop (p : Char → Bool) :
    ∀ (u v : List Char), (∀ w, v.head? = some w → p w = false) →
      (u ++ v).takeWhile p = u.takeWhile p ∧
      (u ++ v).dropWhile p = u.dropWhile p ++ v := by
  intro u
  induction u with
  | nil =>
    intro v hv
    cases v with
    | nil => exact ⟨rfl, rfl⟩
    | cons w vt =>
      have hw := hv w rfl
      constructor
      · simp [List.takeWhile_cons, hw]
      · simp [List.dropWhile_cons, hw]
  | cons a u ih =>
    intro v hv
    cases ha : p a with
    | true =>
      obtain ⟨h1, h2⟩ := ih v hv
      constructor
      · simp [List.takeWhile_cons, ha, h1]
      · simp [List.dropWhile_cons, ha, h2]
    | false =>
      constructor
      · simp [List.takeWhile_cons, ha]
      · simp [List.dropWhile_cons, ha]

/-- The suffix of the text after its newline-free prefix: empty or headed
by a newline. -/
def nlHeadOrNil (v : List Char) : Prop := ∀ w, v.head? = some w → w = '\n'

theorem nlHeadOrNil_blank {v : List Char} (h : nlHeadOrNil v) :
    ∀ w, v.head? = some w → isBlankB w = false := by
  intro w hw
  rw [h w hw]
  rfl

theorem parseSpacedITEM_nl {r : List Char} (h : nlHeadOrNil r) :
    parseSpacedITEM r = none := by
  cases r with
  | nil => rfl
  | cons w rt =>
    have hw := h w rfl
    subst hw
    rfl

theorem mem_of_mem_dropWhile {p : Char → Bool} {c : Char} {l : List Char}
    (h : c ∈ l.dropWhile p) : c ∈ l :=
  (List.dropWhile_sublist p).subset h

/-- Appending a newline-headed (or empty) suffix to a newline-free input
does not change the outcome of the spaced-ITEM parse, beyond carrying the
suffix along in the remainder: the parse consumes no newline, and a
newline fails every check exactly as end-of-input does. -/
theorem parseSpacedITEM_append_nl :
    ∀ (v r : List Char), (∀ c ∈ v, ¬ c = '\n') → nlHeadOrNil r →
      parseSpacedITEM (v ++ r) =
        (parseSpacedITEM v).map (fun ct => (ct.1, ct.2 ++ r)) := by
  intro v r hv hr
  rcases v with _ | ⟨c1, v1⟩
  · simp only [List.nil_append]
    rw [parseSpacedITEM_nl hr]
    rfl
  simp only [List.cons_append, parseSpacedITEM]
  cases h1 : lowerEq 'i' c1 with
  | false => simp
  | true =>
    simp only [if_true]
    obtain ⟨ht1, hd1⟩ := takeWhile_append_stop isBlankB v1 r (nlHeadOrNil_blank hr)
    rw [ht1, hd1]
    have hv1 : ∀ c ∈ v1, ¬ c = '\n' :=
      fun c hc => hv c (List.mem_cons_of_mem _ hc)
    cases hdw1 : v1.dropWhile isBlankB with
    | nil =>
      simp only [List.nil_append]
      rcases r with _ | ⟨w, rt⟩
      · simp
      · have hw := hr w rfl
        subst hw
        have hne : lowerEq 't' '\n' = false := rfl
        simp [hne]
    | cons c2 v2 =>
      simp only [List.cons_append]
      have hv2 : ∀ c ∈ v2, ¬ c = '\n' := fun c hc =>
        hv1 c (mem_of_mem_dropWhile (hdw1 ▸ List.mem_cons_of_mem _ hc))
      cases h2 : lowerEq 't' c2 with
      | false => simp
      | true =>
        simp only [if_true]
        obtain ⟨ht2, hd2⟩ :=
          takeWhile_append_stop isBlankB v2 r (nlHeadOrNil_blank hr)
        rw [ht2, hd2]
        cases hdw2 : v2.dropWhile isBlankB with
        | nil =>
          simp only [List.nil_append]
          rcases r with _ | ⟨w, rt⟩
          · simp
          · have hw := hr w rfl
            subst hw
            have hne : lowerEq 'e' '\n' = false := rfl
            simp [hne]
        | cons c3 v3 =>
          simp only [List.cons_append]
          have hv3 : ∀ c ∈ v3, ¬ c = '\n' := fun c hc =>
            hv2 c (mem_of_mem_dropWhile (hdw2 ▸ List.mem_cons_of_mem _ hc))
          cases h3 : lowerEq 'e' c3 with
          | false => simp
          | true =>
            simp only [if_true]
            obtain ⟨ht3, hd3⟩ :=
              takeWhile_append_stop isBlankB v3 r (nlHeadOrNil_blank hr)
            rw [ht3, hd3]
            cases hdw3 : v3.dropWhile isBlankB with
            | nil =>
              simp only [List.nil_append]
              rcases r with _ | ⟨w, rt⟩
              · simp
              · have hw := hr w rfl
                subst hw
                have hne : lowerEq 'm' '\n' = false := rfl
                simp [hne]
            | cons c4 v4 =>
              simp only [List.cons_append]
              cases h4 : lowerEq 'm' c4 with
              | false => simp
              | true => simp

theorem takeWhile_append_all (p : Char → Bool) :
    ∀ (u v : List Char), (∀ c ∈ u, p c = true) →
      (∀ w, v.head? = some w → p w = false) →
      (u ++ v).takeWhile p = u ∧ (u ++ v).dropWhile p = v := by
  intro u
  induction u with
  | nil =>
    intro v _ hv
    cases v with
    | nil => exact ⟨rfl, rfl⟩
    | cons w vt =>
      have hw := hv w rfl
      constructor
      · simp [List.takeWhile_cons, hw]
      · simp [List.dropWhile_cons, hw]
  | cons a u ih =>
    intro v hu hv
    have ha := hu a (List.mem_cons_self _ _)
    obtain ⟨h1, h2⟩ := ih v (fun c hc => hu c (List.mem_cons_of_mem _ hc)) hv
    constructor
    · simp [List.takeWhile_cons, ha, h1]
    · simp [List.dropWhile_cons, ha, h2]

theorem parseSpacedITEM_append {s core t2 : List Char}
    (h : parseSpacedITEM s = some (core, t2)) : s = core ++ t2 := by
  rcases s with _ | ⟨c1, s1⟩
  · simp [parseSpacedITEM] at h
  simp only [parseSpacedITEM] at h
  by_cases h1 : lowerEq 'i' c1 = true
  · rw [if_pos h1] at h
    split at h
    next c2 s2 hd1 =>
      by_cases h2 : lowerEq 't' c2 = true
      · rw [if_pos h2] at h
        split at h
        next c3 s3 hd2 =>
          by_cases h3 : lowerEq 'e' c3 = true
          · rw [if_pos h3] at h
            split at h
            next c4 s4 hd3 =>
              by_cases h4 : lowerEq 'm' c4 = true
              · rw [if_pos h4] at h
                cases Option.some.inj h
                simp only [List.cons_append]
                congr 1
                conv_lhs => rw [← List.takeWhile_append_dropWhile isBlankB s1,
                  hd1, ← List.takeWhile_append_dropWhile isBlankB s2, hd2,
                  ← List.takeWhile_append_dropWhile isBlankB s3, hd3]
                simp
              · rw [if_neg h4] at h
                cases h
            next => cases h
          · rw [if_neg h3] at h
            cases h
        next => cases h
      · rw [if_neg h2] at h
        cases h
    next => cases h
  · rw [if_neg h1] at h
    cases h

/-- Appending a newline-headed (or empty) suffix leaves the header-core
match unchanged: the pattern never consumes a newline, and a newline fails
the digit check exactly as end-of-input does. -/
theorem hdrTryCore_append_nl (u r : List Char)
    (hu : ∀ c ∈ u, ¬ c = '\n') (hr : nlHeadOrNil r) :
    hdrTryCore (u ++ r) = hdrTryCore u := by
  unfold hdrTryCore
  obtain ⟨ht1, hd1⟩ := takeWhile_append_stop isBlankB u r (nlHeadOrNil_blank hr)
  rw [ht1, hd1]
  have hdu : ∀ c ∈ u.dropWhile isBlankB, ¬ c = '\n' :=
    fun c hc => hu c (mem_of_mem_dropWhile hc)
  rw [parseSpacedITEM_append_nl _ r hdu hr]
  cases hps : parseSpacedITEM (u.dropWhile isBlankB) with
  | none => rfl
  | some ct =>
    obtain ⟨core, t2⟩ := ct
    simp only [Option.map_some']
    have ht2 : ∀ c ∈ t2, ¬ c = '\n' := by
      intro c hc
      apply hdu c
      rw [parseSpacedITEM_append hps]
      exact List.mem_append_right _ hc
    obtain ⟨ht2e, hd2e⟩ :=
      takeWhile_append_stop isBlankB t2 r (nlHeadOrNil_blank hr)
    rw [ht2e, hd2e]
    by_cases he : (t2.takeWhile isBlankB).isEmpty = true
    · simp [he]
    · rw [if_neg he, if_neg he]
      cases hdw : t2.dropWhile isBlankB with
      | nil =>
        simp only [List.nil_append]
        rcases r with _ | ⟨w, rt⟩
        · rfl
        · have hw := hr w rfl
          subst hw
          rfl
      | cons d rest =>
        simp only [List.cons_append]

theorem head_dropWhile_neg (p : Char → Bool) :
    ∀ (l : List Char) (w : Char), (l.dropWhile p).head? = some w → p w = false := by
  intro l
  induction l with
  | nil => intro w hw; cases hw
  | cons a t ih =>
    intro w hw
    by_cases ha : p a = true
    · rw [List.dropWhile_cons, if_pos ha] at hw
      exact ih w hw
    · rw [List.dropWhile_cons, if_neg ha] at hw
      have : a = w := by
        have := Option.some.inj hw
        simpa using this
      subst this
      exact eq_false_of_ne_true ha

/-- The newline-free prefix of a text. -/
def nfp (l : List Char) : List Char := l.takeWhile (fun c => !(c = '\n'))

theorem nfp_spec (l : List Char) :
    (∀ c ∈ nfp l, ¬ c = '\n') ∧
      nlHeadOrNil (l.dropWhile (fun c => !(c = '\n'))) ∧
      nfp l ++ l.dropWhile (fun c => !(c = '\n')) = l := by
  refine ⟨?_, ?_, List.takeWhile_append_dropWhile _ _⟩
  · intro c hc
    have := List.mem_takeWhile_imp hc
    simpa using this
  · intro w hw
    have := head_dropWhile_neg (fun c => !(c = '\n')) l w hw
    simpa using this

/-- The outcome of the header-core match depends only on the newline-free
prefix of its input. -/
theorem hdrTryCore_nfp (t : List Char) : hdrTryCore t = hdrTryCore (nfp t) := by
  obtain ⟨h1, h2, h3⟩ := nfp_spec t
  conv_lhs => rw [← h3]
  exact hdrTryCore_append_nl _ _ h1 h2

theorem hdrTryCore_some_shape {t o : List Char} {n : Nat}
    (h : hdrTryCore t = some (o, n)) :
    ∃ ws1 ws2 d, (∀ c ∈ ws1, isBlankB c = true) ∧
      (∀ c ∈ ws2, isBlankB c = true) ∧ ¬ ws2 = [] ∧ d.isDigit = true ∧
      o = '\n' :: (ws1 ++ str "ITEM" ++ ws2 ++ [d]) ∧ 1 ≤ n := by
  unfold hdrTryCore at h
  split at h
  next core t2 hps =>
    split at h
    next he => cases h
    next he =>
      split at h
      next d rest hdw =>
        split at h
        next hdig =>
          have hp := Option.some.inj h
          obtain ⟨h1, h2⟩ := Prod.ext_iff.mp hp
          simp only at h1 h2
          refine ⟨t.takeWhile isBlankB, t2.takeWhile isBlankB, d,
            fun c hc => List.mem_takeWhile_imp hc,
            fun c hc => List.mem_takeWhile_imp hc, ?_, hdig, h1.symm, ?_⟩
          · intro hemp
            rw [hemp] at he
            exact he rfl
          · omega
        next => cases h
      next => cases h
  next => cases h

/-- A repaired header re-matches as a whole and is replaced by itself. -/
theorem hdrTry_refix {ws1 ws2 : List Char} {d : Char} (x : List Char)
    (h1 : ∀ c ∈ ws1, isBlankB c = true) (h2 : ∀ c ∈ ws2, isBlankB c = true)
    (h3 : ¬ ws2 = []) (h4 : d.isDigit = true) :
    hdrTry (('\n' :: (ws1 ++ str "ITEM" ++ ws2 ++ [d])) ++ x) =
      some ('\n' :: (ws1 ++ str "ITEM" ++ ws2 ++ [d]),
            ('\n' :: (ws1 ++ str "ITEM" ++ ws2 ++ [d])).length) := by
  have hnb : isBlankB 'I' = false := rfl
  have hdnb : isBlankB d = false := by
    cases hb : isBlankB d
    · rfl
    · exfalso
      have : d = ' ' ∨ d = '\t' ∨ d = '\x0b' ∨ d = '\x0c' := by
        simp [isBlankB] at hb
        tauto
      rcases this with h | h | h | h <;> (subst h; exact absurd h4 (by decide))
  simp only [List.cons_append, hdrTry, if_pos]
  unfold hdrTryCore
  have hassoc : (ws1 ++ str "ITEM" ++ ws2 ++ [d]) ++ x =
      ws1 ++ (str "ITEM" ++ (ws2 ++ (d :: x))) := by
    simp
  rw [hassoc]
  obtain ⟨htw, hdw⟩ := takeWhile_append_all isBlankB ws1
    (str "ITEM" ++ (ws2 ++ (d :: x))) h1 (fun w hw => by
      have : w = 'I' := by
        have : (str "ITEM" ++ (ws2 ++ (d :: x))).head? = some 'I' := rfl
        rw [this] at hw
        exact (Option.some.inj hw).symm
      rw [this]
      rfl)
  rw [htw, hdw]
  have hiI : lowerEq 'i' 'I' = true := by decide
  have htT : lowerEq 't' 'T' = true := by decide
  have heE : lowerEq 'e' 'E' = true := by decide
  have hmM : lowerEq 'm' 'M' = true := by decide
  have hbT : isBlankB 'T' = false := by decide
  have hbE : isBlankB 'E' = false := by decide
  have hbM : isBlankB 'M' = false := by decide
  have hps : parseSpacedITEM (str "ITEM" ++ (ws2 ++ (d :: x))) =
      some (str "ITEM", ws2 ++ (d :: x)) := by
    show parseSpacedITEM ('I' :: 'T' :: 'E' :: 'M' :: (ws2 ++ (d :: x))) = _
    simp only [parseSpacedITEM, List.takeWhile_cons, List.dropWhile_cons,
      hiI, htT, heE, hmM, hbT, hbE, hbM, eq_self_iff_true, if_true,
      Bool.false_eq_true, if_false]
    rfl
  simp only [hps]
  obtain ⟨htw2, hdw2⟩ := takeWhile_append_all isBlankB ws2 (d :: x) h2
    (fun w hw => by
      have : w = d := (Option.some.inj hw).symm
      rw [this]
      exact hdnb)
  rw [htw2, hdw2]
  have hemp : ws2.isEmpty = false := by
    cases ws2 with
    | nil => exact absurd rfl h3
    | cons a l => rfl
  rw [hemp]
  simp only [Bool.false_eq_true, if_false, h4, eq_self_iff_true, if_true]
  refine congrArg some (Prod.ext_iff.mpr ⟨?_, ?_⟩)
  · simp
  · have h5 : (str "ITEM").length = 4 := rfl
    simp only [List.length_cons, List.length_append, h5]
    simp
    omega

theorem hdrTry_some_parts {s o : List Char} {n : Nat}
    (h : hdrTry s = some (o, n)) :
    ∃ t, s = '\n' :: t ∧ hdrTryCore t = some (o, n) := by
  rcases s with _ | ⟨c, t⟩
  · simp [hdrTry] at h
  simp only [hdrTry] at h
  by_cases hc : c = '\n'
  · subst hc
    rw [if_pos rfl] at h
    exact ⟨t, rfl, h⟩
  · rw [if_neg hc] at h
    cases h

/-- The header-repair scanner preserves newline-free prefixes. -/
theorem nfp_pyScan_hdr : ∀ (N : Nat) (t : List Char), t.length ≤ N →
    nfp (pyScan hdrTry t 0) = nfp t := by
  intro N
  induction N with
  | zero =>
    intro t hl
    have ht : t = [] := List.eq_nil_of_length_eq_zero (Nat.le_zero.mp hl)
    subst ht
    rfl
  | succ N ih =>
    intro t hl
    cases hh : hdrTry t with
    | some vn =>
      obtain ⟨o, n⟩ := vn
      obtain ⟨t1, hs, hcore⟩ := hdrTry_some_parts hh
      obtain ⟨ws1, ws2, d, _, _, _, _, ho, hn⟩ := hdrTryCore_some_shape hcore
      rw [pyScan_match (by rw [hs]; simp) hn hh]
      rw [ho]
      subst hs
      simp [nfp]
    | none =>
      rcases t with _ | ⟨c, t1⟩
      · rfl
      rw [pyScan_copy hh]
      have hlt : t1.length ≤ N := by
        simp at hl
        omega
      by_cases hc : c = '\n'
      · subst hc
        simp [nfp]
      · show nfp (c :: pyScan hdrTry t1 0) = nfp (c :: t1)
        simp only [nfp, List.takeWhile_cons]
        rw [show (!decide (c = '\n')) = true by simp [hc]]
        simp only [eq_self_iff_true, if_true]
        exact congrArg (c :: ·) (ih t1 hlt)

theorem fix_broken_headers_idem_aux : ∀ (N : Nat) (t : List Char),
    t.length ≤ N →
    pyScan hdrTry (pyScan hdrTry t 0) 0 = pyScan hdrTry t 0 := by
  intro N
  induction N with
  | zero =>
    intro t hl
    have ht : t = [] := List.eq_nil_of_length_eq_zero (Nat.le_zero.mp hl)
    subst ht
    rfl
  | succ N ih =>
    intro t hl
    cases hh : hdrTry t with
    | some vn =>
      obtain ⟨o, n⟩ := vn
      obtain ⟨t1, hs, hcore⟩ := hdrTry_some_parts hh
      obtain ⟨ws1, ws2, d, h1, h2, h3, h4, ho, hn⟩ := hdrTryCore_some_shape hcore
      rw [pyScan_match (by rw [hs]; simp) hn hh]
      have hrefix := hdrTry_refix (pyScan hdrTry (t.drop n) 0) h1 h2 h3 h4
      rw [← ho] at hrefix
      rw [pyScan_match (by simp [ho]) (by simp [ho]) hrefix]
      rw [List.drop_left]
      congr 1
      apply ih
      have hlen : t.length ≤ N + 1 := hl
      have : t ≠ [] := by rw [hs]; simp
      have hpos : 1 ≤ t.length := by
        cases t with
        | nil => exact absurd rfl this
        | cons a l => simp
      simp only [List.length_drop]
      omega
    | none =>
      rcases t with _ | ⟨c, t1⟩
      · rfl
      rw [pyScan_copy hh]
      have hlt : t1.length ≤ N := by
        simp at hl
        omega
      by_cases hc : c = '\n'
      · subst hc
        have hcore_t1 : hdrTryCore t1 = none := by
          have hthis := hh
          simp only [hdrTry, if_true] at hthis
          exact hthis
        have hnone : hdrTry ('\n' :: pyScan hdrTry t1 0) = none := by
          simp only [hdrTry, if_true]
          rw [hdrTryCore_nfp, nfp_pyScan_hdr t1.length t1 le_rfl,
              ← hdrTryCore_nfp]
          exact hcore_t1
        rw [pyScan_copy hnone]
        exact congrArg ('\n' :: ·) (ih t1 hlt)
      · have hnone : hdrTry (c :: pyScan hdrTry t1 0) = none := by
          simp only [hdrTry]
          rw [if_neg hc]
        rw [pyScan_copy hnone]
        exact congrArg (c :: ·) (ih t1 hlt)

/-- C6 amended: the header-repair step of `clean_text` is idempotent —
repairing a text twice gives the same result as repairing it once, so
repaired item headers are never re-corrupted by later passes.  (The full
`clean_text` pass is not idempotent; see the counterexample.) -/
theorem fix_broken_headers_idempotent (t : List Char) :
    fix_broken_headers (fix_broken_headers t) = fix_broken_headers t :=
  fix_broken_headers_idem_aux t.length t le_rfl

end Insight
